import Mathlib

set_option maxRecDepth 4000
set_option maxHeartbeats 1000000

/- Verification development for the bible database import scripts.
   The definitions below are shallow embeddings of the JavaScript
   sources: the SQL script emitter, the direct-execution PostgreSQL
   importer, and the cross reference importer.  The host runtime
   function String.prototype.normalize is kept abstract as a
   parameter named nfkd throughout. -/

deriving instance DecidableEq for Except

namespace BibleDB

/-- SQL values passed as positional parameters. -/
inductive Value : Type
  | str (s : String)
  | int (n : Int)
deriving DecidableEq, Repr

/-- The single quote character, used by the SQL string escaping. -/
def quoteChar : Char := Char.ofNat 39

/-- Model of text.replace with the fixed pattern replacing the character
    AE ligature by a single quote, as in normalizeText. -/
def replaceAe (s : String) : String :=
  String.mk (s.data.map (fun c => if c = 'Æ' then quoteChar else c))

/-- Model of normalizeText from generate_postgresql_direct.js lines 49 to 53.
    A none input stands for null or undefined; the falsy guard also catches
    the empty string. -/
def normalizeText (nfkd : String → String) (text : Option String) : String :=
  match text with
  | none => ""
  | some t => if t = "" then "" else nfkd (replaceAe t)

/-- The body of the script-emitter normalizeText on an actual string input:
    substitution followed by the host normalization pass. -/
def normNG (nfkd : String → String) (t : String) : String :=
  nfkd (replaceAe t)

/-- Model of normalizeText from the script emitter (part_000 lines 177 to 182).
    It has no falsy guard: calling replace on null or undefined raises a
    TypeError, modelled as an error value. -/
def normalizeTextNoGuard (nfkd : String → String) (text : Option String) :
    Except String String :=
  match text with
  | none => Except.error "TypeError"
  | some t => Except.ok (normNG nfkd t)

/-- Escaping on character lists: double every single quote. -/
def escChars : List Char → List Char
  | [] => []
  | c :: cs => if c = quoteChar then c :: c :: escChars cs else c :: escChars cs

/-- Undoubling of quotes, as a SQL literal parser would perform on the
    escaped text. -/
def unescChars : List Char → List Char
  | [] => []
  | [c] => [c]
  | c :: c2 :: cs =>
    if c = quoteChar ∧ c2 = quoteChar then c :: unescChars cs
    else c :: unescChars (c2 :: cs)

/-- Model of escapeString (part_000 lines 167 to 172) restricted to string
    input. -/
def esc (s : String) : String := String.mk (escChars s.data)

/-- Reading back an escaped SQL string literal. -/
def unesc (s : String) : String := String.mk (unescChars s.data)

theorem unescChars_escChars (l : List Char) : unescChars (escChars l) = l := by
  induction l with
  | nil => rfl
  | cons c cs ih =>
    by_cases hc : c = quoteChar
    · simp only [escChars, if_pos hc, unescChars, hc, and_self, if_pos]
      exact congrArg _ ih
    · simp only [escChars, if_neg hc]
      cases h : escChars cs with
      | nil =>
        rw [h] at ih
        simp only [unescChars] at ih
        rw [← ih]
        rfl
      | cons d ds =>
        simp only [unescChars]
        rw [if_neg (by intro hAnd; exact hc hAnd.1)]
        rw [← h, ih]

theorem unesc_esc (s : String) : unesc (esc s) = s := by
  cases s with
  | mk data => simp [unesc, esc, unescChars_escChars]

/-- One source verse: ordinal plus text payload. -/
structure Verse where
  verse : Int
  text : String
deriving DecidableEq, Repr

/-- One source chapter: ordinal plus its verses. -/
structure Chapter where
  chapter : Int
  verses : List Verse
deriving DecidableEq, Repr

/-- One source book: display name plus its chapters. -/
structure Book where
  name : String
  chapters : List Chapter
deriving DecidableEq, Repr

/-- A parsed translation JSON document: the top level books array. -/
structure TranslationData where
  books : List Book
deriving DecidableEq, Repr

/-- One flattened cross reference row: the eight columns inserted by
    insertCrossReferences. -/
structure CrossRow where
  fromBook : String
  fromChapter : Int
  fromVerse : Int
  toBook : String
  toChapter : Int
  toVerseStart : Int
  toVerseEnd : Int
  votes : Int
deriving DecidableEq, Repr

/-- The eight positional parameters pushed for one cross reference row. -/
def CrossRow.toParams (r : CrossRow) : List Value :=
  [Value.str r.fromBook, Value.int r.fromChapter, Value.int r.fromVerse,
   Value.str r.toBook, Value.int r.toChapter, Value.int r.toVerseStart,
   Value.int r.toVerseEnd, Value.int r.votes]

theorem CrossRow.toParams_length (r : CrossRow) : r.toParams.length = 8 := rfl

/-- One flushed multi-row insert of the cross reference writer: the
    placeholder index groups, the flat parameter list, and the row tuples
    the parameters encode. -/
structure CrossFlush where
  groups : List (List Nat)
  params : List Value
  rows : List CrossRow
deriving DecidableEq, Repr

/-- The configured batch size of insertCrossReferences. -/
def batchSize : Nat := 100

/-- Mutable state of the insertCrossReferences loop: pending placeholder
    groups, pending parameters, pending rows, the parameter index counter,
    the running insert count, and the flushes issued so far. -/
structure CRWriter where
  values : List (List Nat)
  params : List Value
  pending : List CrossRow
  paramIndex : Nat
  insertCount : Nat
  flushes : List CrossFlush
deriving DecidableEq, Repr

/-- One iteration of the inner loop of insertCrossReferences (lines 88 to
    112 of generate_cross_references_psql.js): push one placeholder group
    and eight parameters, advance the counters, and flush once the batch
    reaches batchSize, resetting the parameter index to 1. -/
def crStep (st : CRWriter) (row : CrossRow) : CRWriter :=
  let values := st.values ++
    [[st.paramIndex, st.paramIndex + 1, st.paramIndex + 2, st.paramIndex + 3,
      st.paramIndex + 4, st.paramIndex + 5, st.paramIndex + 6, st.paramIndex + 7]]
  let params := st.params ++ row.toParams
  let pending := st.pending ++ [row]
  let insertCount := st.insertCount + 1
  if values.length ≥ batchSize then
    { values := [], params := [], pending := [], paramIndex := 1,
      insertCount := insertCount,
      flushes := st.flushes ++ [⟨values, params, pending⟩] }
  else
    { values := values, params := params, pending := pending,
      paramIndex := st.paramIndex + 8, insertCount := insertCount,
      flushes := st.flushes }

/-- Initial writer state. -/
def crInit : CRWriter := ⟨[], [], [], 1, 0, []⟩

/-- Writer state after consuming the whole row sequence. -/
def crRun (rows : List CrossRow) : CRWriter := rows.foldl crStep crInit

/-- The full flush sequence issued by insertCrossReferences for a source
    row sequence, including the trailing partial flush issued when pending
    rows remain (lines 115 to 120). -/
def crossRefFlushes (rows : List CrossRow) : List CrossFlush :=
  let st := crRun rows
  if st.values.length > 0 then st.flushes ++ [⟨st.values, st.params, st.pending⟩]
  else st.flushes

/-- The expected placeholder groups for m rows of arity a with numbering
    starting at 1. -/
def stdGroups (a m : Nat) : List (List Nat) :=
  (List.range m).map (fun i => (List.range a).map (fun j => a * i + 1 + j))

theorem stdGroups_length (a m : Nat) : (stdGroups a m).length = m := by
  simp [stdGroups]

theorem stdGroups_succ (a m : Nat) :
    stdGroups a (m + 1)
      = stdGroups a m ++ [(List.range a).map (fun j => a * m + 1 + j)] := by
  simp [stdGroups, List.range_succ]

theorem stdGroups_join (a m : Nat) :
    (stdGroups a m).flatten = List.range' 1 (a * m) := by
  induction m with
  | zero => simp [stdGroups]
  | succ m ih =>
    rw [stdGroups_succ, List.flatten_append, ih]
    have h1 : (List.range a).map (fun j => a * m + 1 + j)
        = List.range' (a * m + 1) a := by
      rw [List.range'_eq_map_range]
    simp only [List.flatten_cons, List.flatten_nil, List.append_nil, h1]
    have h2 : a * m + 1 = 1 + a * m := by omega
    have h3 : a * (m + 1) = a + a * m := by ring
    rw [h2, h3, List.range'_append_1]

/-- Invariant of the cross reference writer after consuming n rows. -/
structure CRInv (rows : List CrossRow) (st : CRWriter) : Prop where
  values_eq : st.values = stdGroups 8 (rows.length % 100)
  params_len : st.params.length = 8 * (rows.length % 100)
  pending_len : st.pending.length = rows.length % 100
  pidx : st.paramIndex = 8 * (rows.length % 100) + 1
  count : st.insertCount = rows.length
  fl_len : st.flushes.length = rows.length / 100
  fl_all : ∀ f ∈ st.flushes,
    f.groups = stdGroups 8 100 ∧ f.params.length = 800 ∧ f.rows.length = 100

theorem crStep_inv {rows : List CrossRow} {st : CRWriter} (r : CrossRow)
    (h : CRInv rows st) : CRInv (rows ++ [r]) (crStep st r) := by
  have hm : rows.length % 100 < 100 := Nat.mod_lt _ (by omega)
  have hgrp : st.values ++
      [[st.paramIndex, st.paramIndex + 1, st.paramIndex + 2, st.paramIndex + 3,
        st.paramIndex + 4, st.paramIndex + 5, st.paramIndex + 6,
        st.paramIndex + 7]]
      = stdGroups 8 (rows.length % 100 + 1) := by
    rw [h.values_eq, h.pidx, stdGroups_succ]
    congr 1
  have hlenNew : (rows ++ [r]).length = rows.length + 1 := by simp
  by_cases hfull : rows.length % 100 + 1 = 100
  · have hcond : (st.values ++
        [[st.paramIndex, st.paramIndex + 1, st.paramIndex + 2, st.paramIndex + 3,
          st.paramIndex + 4, st.paramIndex + 5, st.paramIndex + 6,
          st.paramIndex + 7]]).length ≥ batchSize := by
      show _ ≥ 100
      rw [hgrp, stdGroups_length]
      omega
    have hstep : crStep st r =
        { values := [], params := [], pending := [], paramIndex := 1,
          insertCount := st.insertCount + 1,
          flushes := st.flushes ++ [⟨st.values ++
            [[st.paramIndex, st.paramIndex + 1, st.paramIndex + 2, st.paramIndex + 3,
              st.paramIndex + 4, st.paramIndex + 5, st.paramIndex + 6,
              st.paramIndex + 7]], st.params ++ r.toParams, st.pending ++ [r]⟩] } := by
      simp only [crStep]
      rw [if_pos hcond]
    have hmod : (rows ++ [r]).length % 100 = 0 := by
      rw [hlenNew]; omega
    have hdiv : (rows ++ [r]).length / 100 = rows.length / 100 + 1 := by
      rw [hlenNew]; omega
    refine ⟨?_, ?_, ?_, ?_, ?_, ?_, ?_⟩ <;> rw [hstep]
    · rw [hmod]; simp [stdGroups]
    · rw [hmod]; simp
    · rw [hmod]; simp
    · rw [hmod]
    · rw [hlenNew, h.count]
    · simp only [List.length_append, List.length_cons, List.length_nil]
      rw [h.fl_len]
      omega
    · intro f hf
      rcases List.mem_append.mp hf with hf | hf
      · exact h.fl_all f hf
      · have hfe : f = ⟨st.values ++
          [[st.paramIndex, st.paramIndex + 1, st.paramIndex + 2, st.paramIndex + 3,
            st.paramIndex + 4, st.paramIndex + 5, st.paramIndex + 6,
            st.paramIndex + 7]], st.params ++ r.toParams, st.pending ++ [r]⟩ := by
          simpa using hf
        subst hfe
        refine ⟨?_, ?_, ?_⟩
        · show st.values ++ _ = _
          rw [hgrp, hfull]
        · show (st.params ++ r.toParams).length = 800
          simp only [List.length_append, CrossRow.toParams_length, h.params_len]
          omega
        · show (st.pending ++ [r]).length = 100
          simp only [List.length_append, List.length_cons, List.length_nil,
            h.pending_len]
          omega
  · have hcond : ¬ (st.values ++
        [[st.paramIndex, st.paramIndex + 1, st.paramIndex + 2, st.paramIndex + 3,
          st.paramIndex + 4, st.paramIndex + 5, st.paramIndex + 6,
          st.paramIndex + 7]]).length ≥ batchSize := by
      show ¬ _ ≥ 100
      rw [hgrp, stdGroups_length]
      omega
    have hstep : crStep st r =
        { values := st.values ++
            [[st.paramIndex, st.paramIndex + 1, st.paramIndex + 2, st.paramIndex + 3,
              st.paramIndex + 4, st.paramIndex + 5, st.paramIndex + 6,
              st.paramIndex + 7]],
          params := st.params ++ r.toParams, pending := st.pending ++ [r],
          paramIndex := st.paramIndex + 8, insertCount := st.insertCount + 1,
          flushes := st.flushes } := by
      simp only [crStep]
      rw [if_neg hcond]
    have hmod : (rows ++ [r]).length % 100 = rows.length % 100 + 1 := by
      rw [hlenNew]; omega
    have hdiv : (rows ++ [r]).length / 100 = rows.length / 100 := by
      rw [hlenNew]; omega
    refine ⟨?_, ?_, ?_, ?_, ?_, ?_, ?_⟩ <;> rw [hstep]
    · rw [hmod]; exact hgrp
    · rw [hmod]
      simp only [List.length_append, CrossRow.toParams_length, h.params_len]
      omega
    · rw [hmod]
      simp only [List.length_append, List.length_cons, List.length_nil,
        h.pending_len]
    · show st.paramIndex + 8 = 8 * ((rows ++ [r]).length % 100) + 1
      rw [hmod, h.pidx]
      omega
    · rw [hlenNew, h.count]
    · rw [hdiv, h.fl_len]
    · exact h.fl_all

theorem crRun_inv (rows : List CrossRow) : CRInv rows (crRun rows) := by
  induction rows using List.reverseRecOn with
  | nil =>
    refine ⟨?_, ?_, ?_, ?_, ?_, ?_, ?_⟩ <;> simp [crRun, crInit, stdGroups, batchSize]
  | append_singleton rs r ih =>
    have : crRun (rs ++ [r]) = crStep (crRun rs) r := by
      simp [crRun, List.foldl_append]
    rw [this]
    exact crStep_inv r ih

theorem sum_map_const {α : Type} (l : List α) (g : α → Nat) (c : Nat)
    (h : ∀ x ∈ l, g x = c) : (l.map g).sum = l.length * c := by
  induction l with
  | nil => simp
  | cons x xs ih =>
    simp only [List.map_cons, List.sum_cons, List.length_cons]
    rw [h x (by simp), ih (fun y hy => h y (by simp [hy]))]
    ring

/-- C1: for every source sequence of L cross reference row tuples, the
    batched writer issues exactly the ceiling of L over 100 flush
    statements; every flush except possibly the last contains exactly 100
    row groups; when L is positive the last flush contains L mod 100 rows,
    or 100 rows when L mod 100 is zero, and is issued even when it is a
    partial batch; and the parameter list lengths summed over all flushes
    equal L times the column arity 8. -/
theorem crossref_writer_batch_counts (rows : List CrossRow) :
    (crossRefFlushes rows).length = (rows.length + 99) / 100
    ∧ (∀ f ∈ (crossRefFlushes rows).dropLast, f.groups.length = 100)
    ∧ (0 < rows.length →
        ∃ f, (crossRefFlushes rows).getLast? = some f
          ∧ f.groups.length
              = (if rows.length % 100 = 0 then 100 else rows.length % 100))
    ∧ ((crossRefFlushes rows).map (fun f => f.params.length)).sum
        = rows.length * 8 := by
  have h := crRun_inv rows
  have hvlen : (crRun rows).values.length = rows.length % 100 := by
    rw [h.values_eq, stdGroups_length]
  have hsum0 : ((crRun rows).flushes.map (fun f => f.params.length)).sum
      = (rows.length / 100) * 800 := by
    rw [sum_map_const _ _ 800 (fun f hf => (h.fl_all f hf).2.1), h.fl_len]
  by_cases hz : (crRun rows).values.length > 0
  · have hfl : crossRefFlushes rows
        = (crRun rows).flushes
          ++ [⟨(crRun rows).values, (crRun rows).params, (crRun rows).pending⟩] := by
      simp only [crossRefFlushes]
      rw [if_pos hz]
    have hm : 0 < rows.length % 100 := by omega
    refine ⟨?_, ?_, ?_, ?_⟩
    · rw [hfl, List.length_append, h.fl_len]
      simp only [List.length_cons, List.length_nil]
      omega
    · intro f hf
      rw [hfl, List.dropLast_concat] at hf
      rw [(h.fl_all f hf).1, stdGroups_length]
    · intro _
      refine ⟨_, by rw [hfl, List.getLast?_concat], ?_⟩
      rw [if_neg (by omega)]
      show (crRun rows).values.length = rows.length % 100
      exact hvlen
    · rw [hfl, List.map_append, List.sum_append, hsum0]
      simp only [List.map_cons, List.map_nil, List.sum_cons, List.sum_nil]
      rw [h.params_len]
      have : rows.length % 100 + 100 * (rows.length / 100) = rows.length :=
        Nat.mod_add_div _ _
      omega
  · have hfl : crossRefFlushes rows = (crRun rows).flushes := by
      simp only [crossRefFlushes]
      rw [if_neg hz]
    have hm : rows.length % 100 = 0 := by omega
    have hmd : rows.length % 100 + 100 * (rows.length / 100) = rows.length :=
      Nat.mod_add_div _ _
    refine ⟨?_, ?_, ?_, ?_⟩
    · rw [hfl, h.fl_len]
      omega
    · intro f hf
      have hf2 : f ∈ (crRun rows).flushes := by
        rw [hfl] at hf
        exact List.dropLast_subset _ hf
      rw [(h.fl_all f hf2).1, stdGroups_length]
    · intro hLpos
      have hne : (crRun rows).flushes ≠ [] := by
        intro hnil
        have := h.fl_len
        rw [hnil] at this
        simp at this
        omega
      refine ⟨(crRun rows).flushes.getLast hne, ?_, ?_⟩
      · rw [hfl]
        exact List.getLast?_eq_getLast _ hne
      · rw [if_pos hm,
          (h.fl_all _ (List.getLast_mem hne)).1, stdGroups_length]
    · rw [hfl, hsum0]
      omega

/-- C1 witness: the batching facts instantiated at a concrete three row
    sequence. -/
theorem crossref_writer_batch_counts_inst :
    ∃ f, (crossRefFlushes [⟨"a", 1, 1, "b", 2, 3, 4, 5⟩,
        ⟨"a", 1, 2, "b", 2, 3, 4, 5⟩, ⟨"c", 1, 3, "d", 2, 3, 4, 5⟩]).getLast?
        = some f
      ∧ f.groups.length = (if (3 : Nat) % 100 = 0 then 100 else 3 % 100) := by
  have h := (crossref_writer_batch_counts [⟨"a", 1, 1, "b", 2, 3, 4, 5⟩,
    ⟨"a", 1, 2, "b", 2, 3, 4, 5⟩, ⟨"c", 1, 3, "d", 2, 3, 4, 5⟩]).2.2.1
      (by decide)
  simpa using h

/-- One flushed multi-row verse insert: placeholder index groups plus the
    flat parameter list. -/
structure Flush where
  groups : List (List Nat)
  params : List Value
deriving DecidableEq, Repr

/-- Loop state of the per-chapter verse batch builder. -/
structure VWriter where
  values : List (List Nat)
  params : List Value
  paramIndex : Nat
deriving DecidableEq, Repr

/-- One iteration of the verse loop of generatePostgreSQLDirect (lines 177
    to 182): push a three placeholder group and the chapter id, verse
    ordinal and normalized text parameters, then advance the index by 3. -/
def vStep (nfkd : String → String) (cid : Nat) (st : VWriter) (v : Verse) :
    VWriter :=
  { values := st.values ++ [[st.paramIndex, st.paramIndex + 1, st.paramIndex + 2]],
    params := st.params
      ++ [Value.int cid, Value.int v.verse,
          Value.str (normalizeText nfkd (some v.text))],
    paramIndex := st.paramIndex + 3 }

/-- The single parameterized statement built for one chapter by the verse
    loop, with the parameter index starting from 1. -/
def buildVerseFlush (nfkd : String → String) (cid : Nat) (vs : List Verse) :
    Flush :=
  let st := vs.foldl (vStep nfkd cid) ⟨[], [], 1⟩
  ⟨st.values, st.params⟩

/-- The verse flushes issued for one chapter: one statement when the chapter
    has verses, none otherwise (the guard on line 172). -/
def chapterVerseFlushes (nfkd : String → String) (cid : Nat) (ch : Chapter) :
    List Flush :=
  if ch.verses.length > 0 then [buildVerseFlush nfkd cid ch.verses] else []

/-- Invariant of the verse batch builder. -/
structure VInv (vs : List Verse) (st : VWriter) : Prop where
  values_eq : st.values = stdGroups 3 vs.length
  params_len : st.params.length = 3 * vs.length
  pidx : st.paramIndex = 3 * vs.length + 1

theorem vRun_inv (nfkd : String → String) (cid : Nat) (vs : List Verse) :
    VInv vs (vs.foldl (vStep nfkd cid) ⟨[], [], 1⟩) := by
  induction vs using List.reverseRecOn with
  | nil => exact ⟨by simp [stdGroups], by simp, by simp⟩
  | append_singleton xs v ih =>
    rw [List.foldl_append]
    refine ⟨?_, ?_, ?_⟩
    · show (xs.foldl (vStep nfkd cid) ⟨[], [], 1⟩).values ++ _ = _
      rw [ih.values_eq, ih.pidx]
      simp only [List.length_append, List.length_cons, List.length_nil]
      rw [stdGroups_succ]
      congr 1
    · show ((xs.foldl (vStep nfkd cid) ⟨[], [], 1⟩).params ++ _).length = _
      simp only [List.length_append, List.length_cons, List.length_nil,
        ih.params_len]
      simp
      omega
    · show (xs.foldl (vStep nfkd cid) ⟨[], [], 1⟩).paramIndex + 3 = _
      rw [ih.pidx]
      simp only [List.length_append, List.length_cons, List.length_nil]
      omega

theorem buildVerseFlush_groups (nfkd : String → String) (cid : Nat)
    (vs : List Verse) :
    (buildVerseFlush nfkd cid vs).groups = stdGroups 3 vs.length :=
  (vRun_inv nfkd cid vs).values_eq

theorem buildVerseFlush_params_length (nfkd : String → String) (cid : Nat)
    (vs : List Verse) :
    (buildVerseFlush nfkd cid vs).params.length = 3 * vs.length :=
  (vRun_inv nfkd cid vs).params_len

/-- C3: in every flushed batch of either writer the positional placeholders
    are exactly the consecutive indices from 1 to N times the arity, so the
    per batch parameter index counter restarts at 1 on every flush, and the
    parameter list length equals N times the arity, with arity 8 for the
    cross reference writer and arity 3 for the verse writer. -/
theorem flush_param_numbering :
    (∀ rows : List CrossRow, ∀ f ∈ crossRefFlushes rows,
      f.groups.flatten = List.range' 1 (8 * f.groups.length)
        ∧ f.params.length = 8 * f.groups.length)
    ∧ (∀ (nfkd : String → String) (cid : Nat) (ch : Chapter),
        ∀ f ∈ chapterVerseFlushes nfkd cid ch,
        f.groups.flatten = List.range' 1 (3 * f.groups.length)
          ∧ f.params.length = 3 * f.groups.length) := by
  constructor
  · intro rows f hf
    have h := crRun_inv rows
    have hcase : f ∈ (crRun rows).flushes
        ∨ f = ⟨(crRun rows).values, (crRun rows).params, (crRun rows).pending⟩ := by
      simp only [crossRefFlushes] at hf
      by_cases hz : (crRun rows).values.length > 0
      · rw [if_pos hz] at hf
        rcases List.mem_append.mp hf with hmem | hmem
        · exact Or.inl hmem
        · exact Or.inr (by simpa using hmem)
      · rw [if_neg hz] at hf
        exact Or.inl hf
    rcases hcase with hmem | hemem
    · obtain ⟨hg, hp, _⟩ := h.fl_all f hmem
      rw [hg, hp, stdGroups_length, stdGroups_join]
      exact ⟨rfl, rfl⟩
    · subst hemem
      constructor
      · show (crRun rows).values.flatten = _
        rw [h.values_eq, stdGroups_length, stdGroups_join]
      · show (crRun rows).params.length = _
        rw [h.params_len, h.values_eq, stdGroups_length]
  · intro nfkd cid ch f hf
    simp only [chapterVerseFlushes] at hf
    by_cases hz : ch.verses.length > 0
    · rw [if_pos hz] at hf
      have hfe : f = buildVerseFlush nfkd cid ch.verses := by simpa using hf
      subst hfe
      rw [buildVerseFlush_groups, buildVerseFlush_params_length,
        stdGroups_length, stdGroups_join]
      exact ⟨rfl, rfl⟩
    · rw [if_neg hz] at hf
      simp at hf

/-- C3 witness: the numbering facts at one concrete cross reference flush
    and one concrete chapter flush. -/
theorem flush_param_numbering_inst :
    (∃ f, f ∈ crossRefFlushes [⟨"a", 1, 1, "b", 2, 3, 4, 5⟩]
      ∧ f.groups.flatten = List.range' 1 (8 * f.groups.length)
      ∧ f.params.length = 8 * f.groups.length)
    ∧ (∃ f, f ∈ chapterVerseFlushes (fun s => s) 7 ⟨1, [⟨1, "x"⟩, ⟨2, "y"⟩]⟩
      ∧ f.groups.flatten = List.range' 1 (3 * f.groups.length)
      ∧ f.params.length = 3 * f.groups.length) := by
  constructor
  · have hmem : (⟨stdGroups 8 1,
        (⟨"a", 1, 1, "b", 2, 3, 4, 5⟩ : CrossRow).toParams,
        [⟨"a", 1, 1, "b", 2, 3, 4, 5⟩]⟩ : CrossFlush)
        ∈ crossRefFlushes [⟨"a", 1, 1, "b", 2, 3, 4, 5⟩] := by decide
    exact ⟨_, hmem, flush_param_numbering.1 _ _ hmem⟩
  · have hmem : buildVerseFlush (fun s => s) 7 [⟨1, "x"⟩, ⟨2, "y"⟩]
        ∈ chapterVerseFlushes (fun s => s) 7 ⟨1, [⟨1, "x"⟩, ⟨2, "y"⟩]⟩ := by
      simp [chapterVerseFlushes]
    exact ⟨_, hmem, flush_param_numbering.2 _ _ _ _ hmem⟩

/-- C9: neither writer ever issues an insert statement with zero row value
    groups: every flush of the cross reference writer and every per chapter
    verse flush carries at least one group, and an empty source sequence or
    an empty chapter produces no insert statement at all. -/
theorem no_empty_insert :
    (∀ rows : List CrossRow, ∀ f ∈ crossRefFlushes rows, f.groups ≠ [])
    ∧ crossRefFlushes [] = []
    ∧ (∀ (nfkd : String → String) (cid : Nat) (ch : Chapter),
        ∀ f ∈ chapterVerseFlushes nfkd cid ch, f.groups ≠ [])
    ∧ (∀ (nfkd : String → String) (cid : Nat) (n : Int),
        chapterVerseFlushes nfkd cid ⟨n, []⟩ = []) := by
  refine ⟨?_, by decide, ?_, ?_⟩
  · intro rows f hf
    have h := crRun_inv rows
    simp only [crossRefFlushes] at hf
    by_cases hz : (crRun rows).values.length > 0
    · rw [if_pos hz] at hf
      rcases List.mem_append.mp hf with hmem | hmem
      · rw [(h.fl_all f hmem).1]
        intro hnil
        have := stdGroups_length 8 100
        rw [hnil] at this
        simp at this
      · have hfe : f = ⟨(crRun rows).values, (crRun rows).params,
            (crRun rows).pending⟩ := by simpa using hmem
        subst hfe
        show (crRun rows).values ≠ []
        intro hnil
        rw [hnil] at hz
        simp at hz
    · rw [if_neg hz] at hf
      rw [(h.fl_all f hf).1]
      intro hnil
      have := stdGroups_length 8 100
      rw [hnil] at this
      simp at this
  · intro nfkd cid ch f hf
    simp only [chapterVerseFlushes] at hf
    by_cases hz : ch.verses.length > 0
    · rw [if_pos hz] at hf
      have hfe : f = buildVerseFlush nfkd cid ch.verses := by simpa using hf
      subst hfe
      rw [buildVerseFlush_groups]
      intro hnil
      have := stdGroups_length 3 ch.verses.length
      rw [hnil] at this
      simp at this
      omega
    · rw [if_neg hz] at hf
      simp at hf
  · intro nfkd cid n
    simp [chapterVerseFlushes]

/-- C9 witness: a nonempty flush from a one row sequence and the absence of
    statements for an empty sequence, at concrete inputs. -/
theorem no_empty_insert_inst :
    (∃ f, f ∈ crossRefFlushes [⟨"a", 1, 1, "b", 2, 3, 4, 5⟩] ∧ f.groups ≠ [])
    ∧ crossRefFlushes [] = [] := by
  constructor
  · have hmem : (⟨stdGroups 8 1,
        (⟨"a", 1, 1, "b", 2, 3, 4, 5⟩ : CrossRow).toParams,
        [⟨"a", 1, 1, "b", 2, 3, 4, 5⟩]⟩ : CrossFlush)
        ∈ crossRefFlushes [⟨"a", 1, 1, "b", 2, 3, 4, 5⟩] := by decide
    exact ⟨_, hmem, no_empty_insert.1 _ _ hmem⟩
  · exact no_empty_insert.2.1

/-- C8 counterexample: the script-emitter text normalizer is not total on
    null or undefined input: calling replace on a none input raises a
    TypeError instead of returning the empty string. -/
theorem normalize_null_raises_cex :
    normalizeTextNoGuard (fun s => s) none = Except.error "TypeError" := rfl

/-- C8 amended: the direct-execution text normalizer is total: none and the
    empty string pass through as the empty string, and every other input
    gets the fixed substitution followed by the host normalization pass;
    the script-emitter variant behaves that way on every actual string but
    raises a TypeError on null or undefined input. -/
theorem normalize_total_behavior (nfkd : String → String) :
    normalizeText nfkd none = ""
    ∧ normalizeText nfkd (some "") = ""
    ∧ (∀ s : String, s ≠ "" →
        normalizeText nfkd (some s) = nfkd (replaceAe s))
    ∧ (∀ s : String,
        normalizeTextNoGuard nfkd (some s) = Except.ok (nfkd (replaceAe s)))
    ∧ normalizeTextNoGuard nfkd none = Except.error "TypeError" := by
  refine ⟨rfl, rfl, ?_, fun s => rfl, rfl⟩
  intro s hs
  simp [normalizeText, hs]

/-- C8 witness: the amended normalizer facts at a concrete nonempty
    string. -/
theorem normalize_total_behavior_inst :
    normalizeText (fun s => s) (some "ab") = (fun s => s) (replaceAe "ab") :=
  (normalize_total_behavior (fun s => s)).2.2.1 "ab" (by decide)

/-- Result of one query: either no useful payload or a generated id, as in
    RETURNING id. -/
inductive QRes
  | unit
  | id (n : Nat)
deriving DecidableEq, Repr

/-- The row id carried by a query result, as read from rows zero id. -/
def QRes.asId : QRes → Nat
  | .unit => 0
  | .id n => n

/-- Transactional state of one pg client connection over a database of type
    d: the committed contents and, inside a transaction, the working copy. -/
structure PgState (d : Type) where
  committed : d
  txn : Option d
deriving DecidableEq, Repr

/-- Apply a write returning a result: inside a transaction it touches only
    the working copy, outside it autocommits. -/
def PgState.applyW {d : Type} (p : PgState d) (f : d → d × QRes) :
    PgState d × QRes :=
  match p.txn with
  | some w => ({ p with txn := some (f w).1 }, (f w).2)
  | none => ({ p with committed := (f p.committed).1 }, (f p.committed).2)

/-- Observable client events of one run. -/
inductive Event (s : Type) : Type
  | connected (ok : Bool)
  | queried (stmt : s) (ok : Bool)
  | ended (ok : Bool)
deriving DecidableEq, Repr

/-- Errors surfaced by the client: connection failure, failure of the query
    with the given sequence number, or failure of the final release. -/
inductive Err
  | connFail
  | q (k : Nat)
  | endFail
deriving DecidableEq, Repr

/-- Full interpreter state: pg state, the query sequence counter, and the
    event trace. -/
structure RunSt (d s : Type) where
  pg : PgState d
  qc : Nat
  events : List (Event s)
deriving DecidableEq, Repr

/-- Failure oracle for one run: whether connect fails, which queries fail
    by sequence number, and whether the final release fails. -/
structure Oracle where
  connectFails : Bool
  failQuery : Nat → Bool
  endFails : Bool

/-- Execute one client query under the failure oracle: on failure the
    database state is untouched and the error carries the query number. -/
def runQuery {d s : Type} (apply : PgState d → s → PgState d × QRes)
    (fq : Nat → Bool) (st : RunSt d s) (stmt : s) :
    RunSt d s × Except Err QRes :=
  if fq st.qc then
    ({ st with qc := st.qc + 1, events := st.events ++ [.queried stmt false] },
     .error (.q st.qc))
  else
    ({ pg := (apply st.pg stmt).1, qc := st.qc + 1,
       events := st.events ++ [.queried stmt true] },
     .ok (apply st.pg stmt).2)

/-- Model of client.connect. -/
def runConnect {d s : Type} (cf : Bool) (st : RunSt d s) :
    RunSt d s × Except Err Unit :=
  ({ st with events := st.events ++ [.connected (!cf)] },
   if cf then .error .connFail else .ok ())

/-- Model of client.end. -/
def runEnd {d s : Type} (ef : Bool) (st : RunSt d s) :
    RunSt d s × Except Err Unit :=
  ({ st with events := st.events ++ [.ended (!ef)] },
   if ef then .error .endFail else .ok ())

theorem runConnect_false {d s : Type} (st : RunSt d s) :
    runConnect false st
      = ({ st with events := st.events ++ [.connected true] }, .ok ()) := rfl

theorem runEnd_false {d s : Type} (st : RunSt d s) :
    runEnd false st
      = ({ st with events := st.events ++ [.ended true] }, .ok ()) := rfl

/-- One row of the translation table. -/
structure TranslationRow where
  id : Nat
  code : String
  name : String
  language : String
  license : String
deriving DecidableEq, Repr

/-- One row of the book table. -/
structure BookRow where
  id : Nat
  translationId : Nat
  name : String
  bookNumber : Nat
deriving DecidableEq, Repr

/-- One row of the chapter table. -/
structure ChapterRow where
  id : Nat
  bookId : Nat
  chapterNumber : Int
deriving DecidableEq, Repr

/-- One row of the verse table. -/
structure VerseRow where
  id : Nat
  chapterId : Nat
  verseNumber : Int
  text : String
deriving DecidableEq, Repr

/-- The four table relational schema; serial ids are modelled as the table
    length plus one at insertion. -/
structure DB where
  translations : List TranslationRow
  books : List BookRow
  chapters : List ChapterRow
  verses : List VerseRow
deriving DecidableEq, Repr

def emptyDB : DB := ⟨[], [], [], []⟩

/-- Model of INSERT INTO translation ... ON CONFLICT (code) DO UPDATE SET
    name, language, license RETURNING id (lines 144 to 148): on conflict
    the existing row keeps its id and receives the new values, otherwise a
    fresh row is appended. -/
def upsertTranslationTbl (tbl : List TranslationRow)
    (code name language license : String) : List TranslationRow × Nat :=
  match tbl.find? (fun r => r.code == code) with
  | some r =>
      (tbl.map (fun q =>
        if q.code == code then
          { q with name := name, language := language, license := license }
        else q), r.id)
  | none =>
      (tbl ++ [⟨tbl.length + 1, code, name, language, license⟩],
       tbl.length + 1)

def DB.upsertT (db : DB) (code name language license : String) : DB × QRes :=
  let p := upsertTranslationTbl db.translations code name language license
  ({ db with translations := p.1 }, .id p.2)

def DB.insertBook (db : DB) (tid : Nat) (name : String) (num : Nat) :
    DB × QRes :=
  ({ db with books := db.books ++ [⟨db.books.length + 1, tid, name, num⟩] },
   .id (db.books.length + 1))

def DB.insertChapter (db : DB) (bid : Nat) (num : Int) : DB × QRes :=
  ({ db with chapters := db.chapters ++ [⟨db.chapters.length + 1, bid, num⟩] },
   .id (db.chapters.length + 1))

/-- Verse rows of a multi-row insert, with serial ids from the given
    start. -/
def verseRowsFrom (s : Nat) (cid : Nat) : List (Int × String) → List VerseRow
  | [] => []
  | r :: rs => ⟨s, cid, r.1, r.2⟩ :: verseRowsFrom (s + 1) cid rs

def DB.insertVerses (db : DB) (cid : Nat) (rows : List (Int × String)) :
    DB × QRes :=
  ({ db with verses := db.verses
      ++ verseRowsFrom (db.verses.length + 1) cid rows },
   .unit)

/-- The typed row values of the per chapter verse batch: chapter id is a
    shared parameter, each row adds the verse ordinal and the normalized
    text. -/
def verseParams (nfkd : String → String) (vs : List Verse) :
    List (Int × String) :=
  vs.map (fun v => (v.verse, normalizeText nfkd (some v.text)))

/-- The statements issued by generatePostgreSQLDirect. -/
inductive DStmt
  | begin
  | createTbl (k : Nat)
  | upsertT (code name language license : String)
  | insertBook (tid : Nat) (name : String) (num : Nat)
  | insertChapter (bid : Nat) (num : Int)
  | insertVerses (cid : Nat) (rows : List (Int × String))
  | commit
  | rollback
deriving DecidableEq, Repr

/-- Database semantics of one statement: BEGIN opens a working copy, COMMIT
    publishes it, ROLLBACK discards it, CREATE TABLE IF NOT EXISTS is a
    no-op on row contents, and the inserts write through applyW. -/
def applyD (p : PgState DB) : DStmt → PgState DB × QRes
  | .begin => ({ committed := p.committed, txn := some p.committed }, .unit)
  | .commit =>
      (match p.txn with
       | some w => { committed := w, txn := none }
       | none => p, .unit)
  | .rollback => ({ p with txn := none }, .unit)
  | .createTbl _ => (p, .unit)
  | .upsertT c n l lic => p.applyW (fun db => db.upsertT c n l lic)
  | .insertBook t n k => p.applyW (fun db => db.insertBook t n k)
  | .insertChapter b n => p.applyW (fun db => db.insertChapter b n)
  | .insertVerses c rs => p.applyW (fun db => db.insertVerses c rs)

/-- Interpreter state for the direct importer. -/
abbrev DSt := RunSt DB DStmt

def runQ (fq : Nat → Bool) (st : DSt) (stmt : DStmt) :
    DSt × Except Err QRes :=
  runQuery applyD fq st stmt

/-- The chapter loop of generatePostgreSQLDirect (lines 164 to 189): insert
    the chapter row, read back its id, and issue the batched verse insert
    when the chapter has verses. -/
def runChapters (nfkd : String → String) (fq : Nat → Bool) (bid : Nat) :
    List Chapter → DSt → DSt × Except Err Unit
  | [], st => (st, .ok ())
  | ch :: rest, st =>
    match runQ fq st (.insertChapter bid ch.chapter) with
    | (st1, .error e) => (st1, .error e)
    | (st1, .ok r) =>
      if ch.verses.length > 0 then
        match runQ fq st1 (.insertVerses r.asId (verseParams nfkd ch.verses)) with
        | (st2, .error e) => (st2, .error e)
        | (st2, .ok _) => runChapters nfkd fq bid rest st2
      else runChapters nfkd fq bid rest st1

/-- The book loop of generatePostgreSQLDirect (lines 155 to 192): insert
    the book row with its one-based index, read back its id, and process
    its chapters. -/
def runBooks (nfkd : String → String) (fq : Nat → Bool) (tid : Nat) :
    Nat → List Book → DSt → DSt × Except Err Unit
  | _, [], st => (st, .ok ())
  | i, b :: rest, st =>
    match runQ fq st (.insertBook tid b.name (i + 1)) with
    | (st1, .error e) => (st1, .error e)
    | (st1, .ok r) =>
      match runChapters nfkd fq r.asId b.chapters st1 with
      | (st2, .error e) => (st2, .error e)
      | (st2, .ok _) => runBooks nfkd fq tid (i + 1) rest st2

/-- The transactional body of generatePostgreSQLDirect (lines 101 to 197):
    BEGIN, the four CREATE TABLE statements, the translation upsert, the
    book loop, and COMMIT. -/
def runBody (nfkd : String → String) (fq : Nat → Bool)
    (doc : TranslationData) (code name language license : String)
    (st : DSt) : DSt × Except Err Unit :=
  match runQ fq st .begin with
  | (s1, .error e) => (s1, .error e)
  | (s1, .ok _) =>
  match runQ fq s1 (.createTbl 0) with
  | (s2, .error e) => (s2, .error e)
  | (s2, .ok _) =>
  match runQ fq s2 (.createTbl 1) with
  | (s3, .error e) => (s3, .error e)
  | (s3, .ok _) =>
  match runQ fq s3 (.createTbl 2) with
  | (s4, .error e) => (s4, .error e)
  | (s4, .ok _) =>
  match runQ fq s4 (.createTbl 3) with
  | (s5, .error e) => (s5, .error e)
  | (s5, .ok _) =>
  match runQ fq s5 (.upsertT code name language license) with
  | (s6, .error e) => (s6, .error e)
  | (s6, .ok r) =>
  match runBooks nfkd fq r.asId 0 doc.books s6 with
  | (s7, .error e) => (s7, .error e)
  | (s7, .ok _) =>
  match runQ fq s7 .commit with
  | (s8, .error e) => (s8, .error e)
  | (s8, .ok _) => (s8, .ok ())

/-- The whole generatePostgreSQLDirect call (lines 89 to 217): connect and
    run the body inside try; on any error attempt ROLLBACK, swallow its
    failure, and rethrow the original error; finally attempt client.end and
    swallow its failure. -/
def runGenerate (nfkd : String → String) (o : Oracle)
    (doc : TranslationData) (code name language license : String)
    (st : DSt) : DSt × Except Err Unit :=
  let c := runConnect o.connectFails st
  let b := match c.2 with
    | .error e => (c.1, Except.error e)
    | .ok _ => runBody nfkd o.failQuery doc code name language license c.1
  let h := match b.2 with
    | .ok _ => (b.1, Except.ok ())
    | .error e => ((runQ o.failQuery b.1 .rollback).1, Except.error e)
  ((runEnd o.endFails h.1).1, h.2)

/-- The oracle of a run without failures. -/
def nfO : Oracle := ⟨false, fun _ => false, false⟩

/-- Initial interpreter state over an empty database. -/
def emptySt : DSt := ⟨⟨emptyDB, none⟩, 0, []⟩

/-- Pure effect of one chapter of the import on the database. -/
def importChapterPure (nfkd : String → String) (bid : Nat) (db : DB)
    (ch : Chapter) : DB :=
  let p := db.insertChapter bid ch.chapter
  if ch.verses.length > 0 then
    (p.1.insertVerses p.2.asId (verseParams nfkd ch.verses)).1
  else p.1

/-- Pure effect of one book of the import on the database. -/
def importBookPure (nfkd : String → String) (tid : Nat) (db : DB) (i : Nat)
    (b : Book) : DB :=
  let p := db.insertBook tid b.name (i + 1)
  b.chapters.foldl (importChapterPure nfkd p.2.asId) p.1

/-- Pure effect of the indexed book loop on the database. -/
def importBooksPure (nfkd : String → String) (tid : Nat) :
    Nat → List Book → DB → DB
  | _, [], db => db
  | i, b :: rest, db =>
      importBooksPure nfkd tid (i + 1) rest (importBookPure nfkd tid db i b)

/-- Pure effect of one full direct import run on the database. -/
def importPure (nfkd : String → String) (doc : TranslationData)
    (code name language license : String) (db0 : DB) : DB :=
  let p := db0.upsertT code name language license
  importBooksPure nfkd p.2.asId 0 doc.books p.1

theorem runQ_nf (st : DSt) (stmt : DStmt) :
    runQ (fun _ => false) st stmt
      = ({ pg := (applyD st.pg stmt).1, qc := st.qc + 1,
           events := st.events ++ [.queried stmt true] },
         .ok (applyD st.pg stmt).2) := by
  simp [runQ, runQuery]

theorem applyW_some {d : Type} (p : PgState d) (f : d → d × QRes) (w : d)
    (h : p.txn = some w) :
    p.applyW f = (⟨p.committed, some (f w).1⟩, (f w).2) := by
  simp [PgState.applyW, h]

theorem applyW_mk {d : Type} (cm w : d) (f : d → d × QRes) :
    PgState.applyW ⟨cm, some w⟩ f = (⟨cm, some (f w).1⟩, (f w).2) := rfl

theorem runChapters_nf (nfkd : String → String) (bid : Nat) :
    ∀ (chs : List Chapter) (st : DSt) (w : DB), st.pg.txn = some w →
    (runChapters nfkd (fun _ => false) bid chs st).2 = Except.ok ()
    ∧ (runChapters nfkd (fun _ => false) bid chs st).1.pg.committed
        = st.pg.committed
    ∧ (runChapters nfkd (fun _ => false) bid chs st).1.pg.txn
        = some (chs.foldl (importChapterPure nfkd bid) w) := by
  intro chs
  induction chs with
  | nil =>
    intro st w h
    exact ⟨rfl, rfl, by simpa using h⟩
  | cons ch rest ih =>
    intro st w h
    by_cases hv : ch.verses.length > 0
    · have hstep : runChapters nfkd (fun _ => false) bid (ch :: rest) st
          = runChapters nfkd (fun _ => false) bid rest
              { pg := ⟨st.pg.committed,
                  some (importChapterPure nfkd bid w ch)⟩,
                qc := st.qc + 1 + 1,
                events := (st.events
                  ++ [.queried (.insertChapter bid ch.chapter) true])
                  ++ [.queried (.insertVerses (w.chapters.length + 1)
                        (verseParams nfkd ch.verses)) true] } := by
        simp only [runChapters, runQ_nf, applyD, applyW_some st.pg _ w h,
          applyW_mk, DB.insertChapter, QRes.asId, if_pos hv,
          importChapterPure]
      rw [hstep]
      refine ih _ _ ?_
      rfl
    · have hstep : runChapters nfkd (fun _ => false) bid (ch :: rest) st
          = runChapters nfkd (fun _ => false) bid rest
              { pg := ⟨st.pg.committed,
                  some (importChapterPure nfkd bid w ch)⟩,
                qc := st.qc + 1,
                events := st.events
                  ++ [.queried (.insertChapter bid ch.chapter) true] } := by
        simp only [runChapters, runQ_nf, applyD, applyW_some st.pg _ w h,
          applyW_mk, DB.insertChapter, QRes.asId, if_neg hv,
          importChapterPure]
      rw [hstep]
      refine ih _ _ ?_
      rfl

theorem insertBook_snd (db : DB) (tid : Nat) (n : String) (k : Nat) :
    (db.insertBook tid n k).2 = QRes.id (db.books.length + 1) := rfl

theorem upsertT_snd (db : DB) (c n l lic : String) :
    (db.upsertT c n l lic).2
      = QRes.id (upsertTranslationTbl db.translations c n l lic).2 := rfl

theorem asId_id (n : Nat) : QRes.asId (.id n) = n := rfl

theorem runBooks_nf (nfkd : String → String) (tid : Nat) :
    ∀ (bs : List Book) (i : Nat) (st : DSt) (w : DB), st.pg.txn = some w →
    (runBooks nfkd (fun _ => false) tid i bs st).2 = Except.ok ()
    ∧ (runBooks nfkd (fun _ => false) tid i bs st).1.pg.committed
        = st.pg.committed
    ∧ (runBooks nfkd (fun _ => false) tid i bs st).1.pg.txn
        = some (importBooksPure nfkd tid i bs w) := by
  intro bs
  induction bs with
  | nil =>
    intro i st w h
    exact ⟨rfl, rfl, by simpa [importBooksPure] using h⟩
  | cons b rest ih =>
    intro i st w h
    simp only [runBooks, runQ_nf, applyD, applyW_some st.pg _ w h,
      insertBook_snd, asId_id]
    have hch := runChapters_nf nfkd (w.books.length + 1) b.chapters
      { pg := ⟨st.pg.committed, some (w.insertBook tid b.name (i + 1)).1⟩,
        qc := st.qc + 1,
        events := st.events ++ [.queried (.insertBook tid b.name (i + 1)) true] }
      (w.insertBook tid b.name (i + 1)).1 rfl
    split
    · next st2 e hsc =>
      rw [hsc] at hch
      simp at hch
    · next st2 r hsc =>
      rw [hsc] at hch
      obtain ⟨-, hcm, htx⟩ := hch
      have hrest := ih (i + 1) st2
        (b.chapters.foldl (importChapterPure nfkd (w.books.length + 1))
          (w.insertBook tid b.name (i + 1)).1) htx
      refine ⟨hrest.1, ?_, ?_⟩
      · rw [hrest.2.1, hcm]
      · exact hrest.2.2

theorem runBooks_nf_pair (nfkd : String → String) (tid : Nat)
    (bs : List Book) (i : Nat) (st : DSt) (st2 : DSt) (r : Except Err Unit)
    (hsc : runBooks nfkd (fun _ => false) tid i bs st = (st2, r))
    (w : DB) (h : st.pg.txn = some w) :
    r = Except.ok () ∧ st2.pg.committed = st.pg.committed
    ∧ st2.pg.txn = some (importBooksPure nfkd tid i bs w) := by
  have hb := runBooks_nf nfkd tid bs i st w h
  rw [hsc] at hb
  exact hb

theorem runBody_nf (nfkd : String → String) (doc : TranslationData)
    (code name language license : String) (st : DSt) :
    (runBody nfkd (fun _ => false) doc code name language license st).2
      = Except.ok ()
    ∧ (runBody nfkd (fun _ => false) doc code name language license st).1.pg.committed
        = importPure nfkd doc code name language license st.pg.committed
    ∧ (runBody nfkd (fun _ => false) doc code name language license st).1.pg.txn
        = none := by
  simp only [runBody, runQ_nf, applyD, applyW_mk, upsertT_snd, asId_id]
  split
  · next st7 e hsc =>
    obtain ⟨hok, -, -⟩ := runBooks_nf_pair nfkd _ _ _ _ _ _ hsc _ rfl
    exact absurd hok (by simp)
  · next st7 r hsc =>
    obtain ⟨-, hcm, htx⟩ := runBooks_nf_pair nfkd _ _ _ _ _ _ hsc _ rfl
    simp only [runQ_nf, applyD, htx]
    refine ⟨trivial, ?_, trivial⟩
    simp only [importPure, upsertT_snd, asId_id]

theorem runBody_nf_pair (nfkd : String → String) (doc : TranslationData)
    (code name language license : String) (st : DSt) (st8 : DSt)
    (r : Except Err Unit)
    (hsc : runBody nfkd (fun _ => false) doc code name language license st
      = (st8, r)) :
    r = Except.ok ()
    ∧ st8.pg.committed
        = importPure nfkd doc code name language license st.pg.committed
    ∧ st8.pg.txn = none := by
  have hb := runBody_nf nfkd doc code name language license st
  rw [hsc] at hb
  exact hb

/-- A full direct import run without failures commits exactly the
    pure import effect and leaves no open transaction. -/
theorem runGenerate_nf (nfkd : String → String) (doc : TranslationData)
    (code name language license : String) (st : DSt) :
    (runGenerate nfkd nfO doc code name language license st).2 = Except.ok ()
    ∧ (runGenerate nfkd nfO doc code name language license st).1.pg.committed
        = importPure nfkd doc code name language license st.pg.committed
    ∧ (runGenerate nfkd nfO doc code name language license st).1.pg.txn
        = none := by
  rcases hsc : runBody nfkd (fun _ => false) doc code name language license
      { pg := st.pg, qc := st.qc, events := st.events ++ [Event.connected true] }
    with ⟨st8, r⟩
  obtain ⟨hok, hcm, htx⟩ := runBody_nf_pair nfkd doc code name language license
    _ _ _ hsc
  subst hok
  simp only [runGenerate, nfO, runConnect, runEnd, Bool.not_false, reduceIte, hsc]
  exact ⟨rfl, hcm, htx⟩

/-- State after a successful query. -/
def qOk (st : DSt) (stmt : DStmt) : DSt :=
  { pg := (applyD st.pg stmt).1, qc := st.qc + 1,
    events := st.events ++ [.queried stmt true] }

/-- State after a failed query. -/
def qFail (st : DSt) (stmt : DStmt) : DSt :=
  { st with qc := st.qc + 1, events := st.events ++ [.queried stmt false] }

theorem qOk_pg (st : DSt) (stmt : DStmt) :
    (qOk st stmt).pg = (applyD st.pg stmt).1 := rfl

theorem qFail_pg (st : DSt) (stmt : DStmt) : (qFail st stmt).pg = st.pg := rfl

theorem runQ_split (fq : Nat → Bool) (st : DSt) (stmt : DStmt) :
    runQ fq st stmt = (qFail st stmt, .error (.q st.qc))
    ∨ runQ fq st stmt = (qOk st stmt, .ok (applyD st.pg stmt).2) := by
  by_cases h1 : fq st.qc
  · exact Or.inl (by simp [runQ, runQuery, qFail, h1])
  · exact Or.inr (by simp [runQ, runQuery, qOk, h1])

theorem applyD_insertChapter (p : PgState DB) (w : DB) (h : p.txn = some w)
    (bid : Nat) (n : Int) :
    applyD p (.insertChapter bid n)
      = (⟨p.committed, some (w.insertChapter bid n).1⟩,
         (w.insertChapter bid n).2) := by
  simp [applyD, applyW_some p _ w h]

theorem applyD_insertVerses (p : PgState DB) (w : DB) (h : p.txn = some w)
    (cid : Nat) (rows : List (Int × String)) :
    applyD p (.insertVerses cid rows)
      = (⟨p.committed, some (w.insertVerses cid rows).1⟩,
         (w.insertVerses cid rows).2) := by
  simp [applyD, applyW_some p _ w h]

theorem applyD_insertBook (p : PgState DB) (w : DB) (h : p.txn = some w)
    (tid : Nat) (n : String) (k : Nat) :
    applyD p (.insertBook tid n k)
      = (⟨p.committed, some (w.insertBook tid n k).1⟩,
         (w.insertBook tid n k).2) := by
  simp [applyD, applyW_some p _ w h]

theorem applyD_upsertT (p : PgState DB) (w : DB) (h : p.txn = some w)
    (c n l lic : String) :
    applyD p (.upsertT c n l lic)
      = (⟨p.committed, some (w.upsertT c n l lic).1⟩,
         (w.upsertT c n l lic).2) := by
  simp [applyD, applyW_some p _ w h]

theorem runChapters_keep (nfkd : String → String) (fq : Nat → Bool)
    (bid : Nat) :
    ∀ (chs : List Chapter) (st : DSt) (w : DB), st.pg.txn = some w →
    (runChapters nfkd fq bid chs st).1.pg.committed = st.pg.committed
    ∧ ∃ w2, (runChapters nfkd fq bid chs st).1.pg.txn = some w2 := by
  intro chs
  induction chs with
  | nil => intro st w h; exact ⟨rfl, w, h⟩
  | cons ch rest ih =>
    intro st w h
    have hch := applyD_insertChapter st.pg w h bid ch.chapter
    have hcm1 : (qOk st (.insertChapter bid ch.chapter)).pg.committed
        = st.pg.committed := by
      rw [qOk_pg, hch]
    have h1 : (qOk st (.insertChapter bid ch.chapter)).pg.txn
        = some (w.insertChapter bid ch.chapter).1 := by
      rw [qOk_pg, hch]
    rcases runQ_split fq st (.insertChapter bid ch.chapter) with heq | heq
    · simp only [runChapters, heq]
      exact ⟨rfl, w, h⟩
    · simp only [runChapters, heq]
      by_cases hv : ch.verses.length > 0
      · rw [if_pos hv]
        have hvs := applyD_insertVerses
          (qOk st (.insertChapter bid ch.chapter)).pg
          (w.insertChapter bid ch.chapter).1 h1
          ((applyD st.pg (.insertChapter bid ch.chapter)).2.asId)
          (verseParams nfkd ch.verses)
        have hcm2 : (qOk (qOk st (.insertChapter bid ch.chapter))
            (.insertVerses ((applyD st.pg (.insertChapter bid ch.chapter)).2.asId)
              (verseParams nfkd ch.verses))).pg.committed
            = st.pg.committed := by
          rw [qOk_pg, hvs]
          exact hcm1
        have h2 : (qOk (qOk st (.insertChapter bid ch.chapter))
            (.insertVerses ((applyD st.pg (.insertChapter bid ch.chapter)).2.asId)
              (verseParams nfkd ch.verses))).pg.txn
            = some ((w.insertChapter bid ch.chapter).1.insertVerses
                ((applyD st.pg (.insertChapter bid ch.chapter)).2.asId)
                (verseParams nfkd ch.verses)).1 := by
          rw [qOk_pg, hvs]
        rcases runQ_split fq (qOk st (.insertChapter bid ch.chapter))
            (.insertVerses ((applyD st.pg (.insertChapter bid ch.chapter)).2.asId)
              (verseParams nfkd ch.verses)) with heq2 | heq2
        · simp only [heq2]
          exact ⟨hcm1, _, h1⟩
        · simp only [heq2]
          obtain ⟨hcm, w3, htx⟩ := ih _ _ h2
          exact ⟨by rw [hcm, hcm2], w3, htx⟩
      · rw [if_neg hv]
        obtain ⟨hcm, w3, htx⟩ := ih _ _ h1
        exact ⟨by rw [hcm, hcm1], w3, htx⟩

theorem runChapters_keep_pair (nfkd : String → String) (fq : Nat → Bool)
    (bid : Nat) (chs : List Chapter) (st : DSt) (st2 : DSt)
    (r : Except Err Unit)
    (hsc : runChapters nfkd fq bid chs st = (st2, r))
    (w : DB) (h : st.pg.txn = some w) :
    st2.pg.committed = st.pg.committed ∧ ∃ w2, st2.pg.txn = some w2 := by
  have hk := runChapters_keep nfkd fq bid chs st w h
  rw [hsc] at hk
  exact hk

theorem runBooks_keep (nfkd : String → String) (fq : Nat → Bool)
    (tid : Nat) :
    ∀ (bs : List Book) (i : Nat) (st : DSt) (w : DB), st.pg.txn = some w →
    (runBooks nfkd fq tid i bs st).1.pg.committed = st.pg.committed
    ∧ ∃ w2, (runBooks nfkd fq tid i bs st).1.pg.txn = some w2 := by
  intro bs
  induction bs with
  | nil => intro i st w h; exact ⟨rfl, w, h⟩
  | cons b rest ih =>
    intro i st w h
    have hbk := applyD_insertBook st.pg w h tid b.name (i + 1)
    have hcm1 : (qOk st (.insertBook tid b.name (i + 1))).pg.committed
        = st.pg.committed := by
      rw [qOk_pg, hbk]
    have h1 : (qOk st (.insertBook tid b.name (i + 1))).pg.txn
        = some (w.insertBook tid b.name (i + 1)).1 := by
      rw [qOk_pg, hbk]
    rcases runQ_split fq st (.insertBook tid b.name (i + 1)) with heq | heq
    · simp only [runBooks, heq]
      exact ⟨rfl, w, h⟩
    · simp only [runBooks, heq]
      rcases hrc : runChapters nfkd fq
          ((applyD st.pg (.insertBook tid b.name (i + 1))).2.asId) b.chapters
          (qOk st (.insertBook tid b.name (i + 1))) with ⟨st2, r2⟩
      obtain ⟨hcm, w2, htx⟩ :=
        runChapters_keep_pair nfkd fq _ _ _ _ _ hrc _ h1
      cases r2 with
      | error e => exact ⟨by rw [hcm, hcm1], w2, htx⟩
      | ok u =>
        obtain ⟨hcm2, w3, htx2⟩ := ih (i + 1) st2 w2 htx
        exact ⟨by rw [hcm2, hcm, hcm1], w3, htx2⟩

theorem runBooks_keep_pair (nfkd : String → String) (fq : Nat → Bool)
    (tid : Nat) (bs : List Book) (i : Nat) (st : DSt) (st2 : DSt)
    (r : Except Err Unit)
    (hsc : runBooks nfkd fq tid i bs st = (st2, r))
    (w : DB) (h : st.pg.txn = some w) :
    st2.pg.committed = st.pg.committed ∧ ∃ w2, st2.pg.txn = some w2 := by
  have hk := runBooks_keep nfkd fq tid bs i st w h
  rw [hsc] at hk
  exact hk

/-- Either the transactional body left the committed database untouched, or
    it ran to completion: a body that reports an error never publishes
    anything. -/
theorem applyD_begin (p : PgState DB) :
    applyD p .begin = (⟨p.committed, some p.committed⟩, .unit) := rfl

theorem applyD_create (p : PgState DB) (k : Nat) :
    applyD p (.createTbl k) = (p, .unit) := rfl

theorem applyD_commit_some (p : PgState DB) (w : DB) (h : p.txn = some w) :
    applyD p .commit = (⟨w, none⟩, .unit) := by
  simp [applyD, h]

theorem runBody_outcome (nfkd : String → String) (fq : Nat → Bool)
    (doc : TranslationData) (code name language license : String)
    (st : DSt) :
    (runBody nfkd fq doc code name language license st).1.pg.committed
        = st.pg.committed
    ∨ (runBody nfkd fq doc code name language license st).2 = Except.ok () := by
  rcases runQ_split fq st .begin with h1 | h1
  · simp only [runBody, h1]
    exact Or.inl rfl
  · simp only [runBody, h1]
    set s1 := qOk st .begin with hs1
    have hp1 : s1.pg = ⟨st.pg.committed, some st.pg.committed⟩ := by
      rw [hs1, qOk_pg, applyD_begin]
    rcases runQ_split fq s1 (.createTbl 0) with h2 | h2
    · simp only [h2]
      exact Or.inl (by rw [qFail_pg, hp1])
    · simp only [h2]
      set s2 := qOk s1 (.createTbl 0) with hs2
      have hp2 : s2.pg = ⟨st.pg.committed, some st.pg.committed⟩ := by
        rw [hs2, qOk_pg, applyD_create, hp1]
      rcases runQ_split fq s2 (.createTbl 1) with h3 | h3
      · simp only [h3]
        exact Or.inl (by rw [qFail_pg, hp2])
      · simp only [h3]
        set s3 := qOk s2 (.createTbl 1) with hs3
        have hp3 : s3.pg = ⟨st.pg.committed, some st.pg.committed⟩ := by
          rw [hs3, qOk_pg, applyD_create, hp2]
        rcases runQ_split fq s3 (.createTbl 2) with h4 | h4
        · simp only [h4]
          exact Or.inl (by rw [qFail_pg, hp3])
        · simp only [h4]
          set s4 := qOk s3 (.createTbl 2) with hs4
          have hp4 : s4.pg = ⟨st.pg.committed, some st.pg.committed⟩ := by
            rw [hs4, qOk_pg, applyD_create, hp3]
          rcases runQ_split fq s4 (.createTbl 3) with h5 | h5
          · simp only [h5]
            exact Or.inl (by rw [qFail_pg, hp4])
          · simp only [h5]
            set s5 := qOk s4 (.createTbl 3) with hs5
            have hp5 : s5.pg = ⟨st.pg.committed, some st.pg.committed⟩ := by
              rw [hs5, qOk_pg, applyD_create, hp4]
            have htx5 : s5.pg.txn = some st.pg.committed := by rw [hp5]
            have hup := applyD_upsertT s5.pg st.pg.committed htx5
              code name language license
            rcases runQ_split fq s5 (.upsertT code name language license)
              with h6 | h6
            · simp only [h6]
              exact Or.inl (by rw [qFail_pg, hp5])
            · simp only [h6]
              set s6 := qOk s5 (.upsertT code name language license) with hs6
              have hcm6 : s6.pg.committed = st.pg.committed := by
                rw [hs6, qOk_pg, hup]
                show (⟨s5.pg.committed, _⟩ : PgState DB).committed = _
                rw [hp5]
              have htx6 : s6.pg.txn
                  = some (st.pg.committed.upsertT code name language license).1 := by
                rw [hs6, qOk_pg, hup]
              rcases hrb : runBooks nfkd fq
                  ((applyD s5.pg (.upsertT code name language license)).2.asId)
                  0 doc.books s6 with ⟨s7, r7⟩
              obtain ⟨hcm7, w7, htx7⟩ :=
                runBooks_keep_pair nfkd fq _ _ _ _ _ _ hrb _ htx6
              cases r7 with
              | error e => exact Or.inl (by rw [hcm7, hcm6])
              | ok u =>
                rcases runQ_split fq s7 .commit with h8 | h8
                · simp only [h8]
                  exact Or.inl (by rw [qFail_pg, hcm7, hcm6])
                · simp only [h8]
                  exact Or.inr trivial

theorem applyD_rollback (p : PgState DB) :
    applyD p .rollback = ({ p with txn := none }, .unit) := rfl

/-- The client state right after a successful connect. -/
def postConnect (st : DSt) : DSt :=
  { st with events := st.events ++ [Event.connected true] }

/-- C4: in direct-execution mode, when any statement between BEGIN and
    COMMIT fails, the coordinator re-raises the original error to the
    caller, the committed database is exactly what it was before the run
    (so no partial data for the document is visible), and a ROLLBACK is
    issued; the failure oracle fq is arbitrary, so a failing ROLLBACK is
    also covered and is swallowed, the caller still seeing the original
    error. -/
theorem direct_error_rollback (nfkd : String → String) (fq : Nat → Bool)
    (ef : Bool) (doc : TranslationData) (code name language license : String)
    (st : DSt) (e : Err)
    (hfail : (runBody nfkd fq doc code name language license
        (postConnect st)).2 = Except.error e) :
    (runGenerate nfkd ⟨false, fq, ef⟩ doc code name language license st).2
      = Except.error e
    ∧ (runGenerate nfkd ⟨false, fq, ef⟩ doc code name language license
        st).1.pg.committed = st.pg.committed
    ∧ ∃ ok, Event.queried DStmt.rollback ok
        ∈ (runGenerate nfkd ⟨false, fq, ef⟩ doc code name language license
            st).1.events := by
  rcases hb : runBody nfkd fq doc code name language license (postConnect st)
    with ⟨st8, r8⟩
  rw [hb] at hfail
  replace hfail : r8 = Except.error e := hfail
  subst hfail
  have hout := runBody_outcome nfkd fq doc code name language license
    (postConnect st)
  rw [hb] at hout
  replace hout : st8.pg.committed = st.pg.committed := by
    rcases hout with hcm | hok
    · exact hcm
    · exact absurd hok (by simp)
  simp only [runGenerate, runConnect, runEnd, Bool.not_false, reduceIte]
  rw [show ({ st with events := st.events ++ [Event.connected true] } : DSt)
      = postConnect st from rfl, hb]
  refine ⟨rfl, ?_, ?_⟩
  · show (runQ fq st8 .rollback).1.pg.committed = st.pg.committed
    rcases runQ_split fq st8 .rollback with hq | hq
    · rw [hq]
      exact hout
    · rw [hq, qOk_pg, applyD_rollback]
      exact hout
  · rcases runQ_split fq st8 .rollback with hq | hq
    · refine ⟨false, ?_⟩
      show _ ∈ (runQ fq st8 .rollback).1.events ++ _
      rw [hq]
      simp [qFail]
    · refine ⟨true, ?_⟩
      show _ ∈ (runQ fq st8 .rollback).1.events ++ _
      rw [hq]
      simp [qOk]

/-- C4 witness: a run whose BEGIN fails, instantiated concretely. -/
theorem direct_error_rollback_inst :
    (runGenerate (fun s => s) ⟨false, fun k => k == 0, false⟩ ⟨[]⟩
        "X" "N" "en" "L" emptySt).2 = Except.error (.q 0)
    ∧ (runGenerate (fun s => s) ⟨false, fun k => k == 0, false⟩ ⟨[]⟩
        "X" "N" "en" "L" emptySt).1.pg.committed = emptySt.pg.committed
    ∧ ∃ ok, Event.queried DStmt.rollback ok
        ∈ (runGenerate (fun s => s) ⟨false, fun k => k == 0, false⟩ ⟨[]⟩
            "X" "N" "en" "L" emptySt).1.events :=
  direct_error_rollback (fun s => s) (fun k => k == 0) false ⟨[]⟩
    "X" "N" "en" "L" emptySt (.q 0) (by decide)

/-- C7 amended (positive half, for generatePostgreSQLDirect): on every
    terminal path of a direct import run the last client action is the
    release attempt, and the run outcome does not depend on whether that
    release fails, so a release failure is never propagated. The cross
    reference importer main violates the original claim, see the
    counterexample. -/
theorem connection_release_direct (nfkd : String → String) (cf : Bool)
    (fq : Nat → Bool) (ef1 ef2 : Bool) (doc : TranslationData)
    (code name language license : String) (st : DSt) :
    (∃ b, ((runGenerate nfkd ⟨cf, fq, ef1⟩ doc code name language license
        st).1.events).getLast? = some (.ended b))
    ∧ (runGenerate nfkd ⟨cf, fq, ef1⟩ doc code name language license st).2
      = (runGenerate nfkd ⟨cf, fq, ef2⟩ doc code name language license st).2 := by
  constructor
  · refine ⟨!ef1, ?_⟩
    simp only [runGenerate, runEnd]
    rw [List.getLast?_concat]
  · simp only [runGenerate, runEnd]

theorem importChapterPure_translations (nfkd : String → String) (bid : Nat)
    (db : DB) (ch : Chapter) :
    (importChapterPure nfkd bid db ch).translations = db.translations := by
  by_cases hv : ch.verses.length > 0 <;>
    simp [importChapterPure, hv, DB.insertChapter, DB.insertVerses]

theorem foldl_chapters_translations (nfkd : String → String) (bid : Nat)
    (chs : List Chapter) :
    ∀ db : DB,
    (chs.foldl (importChapterPure nfkd bid) db).translations
      = db.translations := by
  induction chs with
  | nil => intro db; rfl
  | cons ch rest ih =>
    intro db
    rw [List.foldl_cons, ih, importChapterPure_translations]

theorem importBookPure_translations (nfkd : String → String) (tid : Nat)
    (db : DB) (i : Nat) (b : Book) :
    (importBookPure nfkd tid db i b).translations = db.translations := by
  simp only [importBookPure]
  rw [foldl_chapters_translations]
  rfl

theorem importBooksPure_translations (nfkd : String → String) (tid : Nat)
    (bs : List Book) :
    ∀ (i : Nat) (db : DB),
    (importBooksPure nfkd tid i bs db).translations = db.translations := by
  induction bs with
  | nil => intro i db; rfl
  | cons b rest ih =>
    intro i db
    show (importBooksPure nfkd tid (i + 1) rest
      (importBookPure nfkd tid db i b)).translations = db.translations
    rw [ih, importBookPure_translations]

theorem importPure_translations (nfkd : String → String)
    (doc : TranslationData) (code name language license : String)
    (db0 : DB) :
    (importPure nfkd doc code name language license db0).translations
      = (upsertTranslationTbl db0.translations code name language license).1 := by
  simp only [importPure]
  rw [importBooksPure_translations]
  rfl

/-- C6: importing the same document code twice in direct-execution mode
    leaves exactly one translation row for that code: the first run creates
    it with generated id 1, and the second run keeps that id while
    overwriting name, language and license with the second run values,
    never duplicating the row. -/
theorem translation_upsert_idempotent (nfkd : String → String)
    (doc1 doc2 : TranslationData) (code n1 l1 r1 n2 l2 r2 : String) :
    ((runGenerate nfkd nfO doc1 code n1 l1 r1
        emptySt).1.pg.committed.translations = [⟨1, code, n1, l1, r1⟩])
    ∧ ((runGenerate nfkd nfO doc2 code n2 l2 r2
        (runGenerate nfkd nfO doc1 code n1 l1 r1
          emptySt).1).1.pg.committed.translations
        = [⟨1, code, n2, l2, r2⟩]) := by
  obtain ⟨-, hcm1, -⟩ := runGenerate_nf nfkd doc1 code n1 l1 r1 emptySt
  have ht1 : (runGenerate nfkd nfO doc1 code n1 l1 r1
      emptySt).1.pg.committed.translations = [⟨1, code, n1, l1, r1⟩] := by
    rw [hcm1, importPure_translations]
    simp [upsertTranslationTbl, emptySt, emptyDB]
  refine ⟨ht1, ?_⟩
  obtain ⟨-, hcm2, -⟩ := runGenerate_nf nfkd doc2 code n2 l2 r2
    (runGenerate nfkd nfO doc1 code n1 l1 r1 emptySt).1
  rw [hcm2, importPure_translations, ht1]
  simp [upsertTranslationTbl]

/-- The concrete scenario document: two books, each with one chapter of
    three verses. -/
def demoDoc : TranslationData :=
  ⟨[⟨"Alpha", [⟨1, [⟨1, "a"⟩, ⟨2, "b"⟩, ⟨3, "c"⟩]⟩]⟩,
    ⟨"Beta", [⟨1, [⟨1, "d"⟩, ⟨2, "e"⟩, ⟨3, "f"⟩]⟩]⟩]⟩

/-- The sizes, in row value groups, of the verse insert statements found in
    an event trace, in order. -/
def verseFlushSizes (evs : List (Event DStmt)) : List Nat :=
  evs.filterMap (fun e =>
    match e with
    | .queried (.insertVerses _ rows) _ => some rows.length
    | _ => none)

/-- C2 counterexample: on the two books times one chapter times three
    leaves document, the direct-execution leaf writer issues two verse
    flushes of three rows each, one per chapter, not three flushes of two:
    the writer has no configurable batch size and batches per subsection. -/
theorem direct_leaf_batch_scenario_cex :
    (verseFlushSizes (runGenerate (fun s => s) nfO demoDoc
        "X" "N" "en" "L" emptySt).1.events).length ≠ 3
    ∧ verseFlushSizes (runGenerate (fun s => s) nfO demoDoc
        "X" "N" "en" "L" emptySt).1.events ≠ [2, 2, 2] := by
  decide

/-- C2 amended: importing the two books times one chapter times three
    leaves document in direct-execution mode issues exactly two verse
    flushes, of sizes three and three (one unbounded flush per
    subsection), and afterwards exactly six verse rows exist whose
    ordinals are those of the source document. -/
theorem direct_leaf_batch_scenario (nfkd : String → String) :
    verseFlushSizes (runGenerate nfkd nfO demoDoc
        "X" "N" "en" "L" emptySt).1.events = [3, 3]
    ∧ ((runGenerate nfkd nfO demoDoc
        "X" "N" "en" "L" emptySt).1.pg.committed.verses.map
          (fun v => v.verseNumber)) = [1, 2, 3, 1, 2, 3]
    ∧ (runGenerate nfkd nfO demoDoc
        "X" "N" "en" "L" emptySt).1.pg.committed.verses.length = 6 := by
  exact ⟨rfl, rfl, rfl⟩

/-- Database of the annotation importer: the cross_references table rows. -/
abbrev XDB := List CrossRow

/-- Statements issued by the cross reference importer in execute mode. -/
inductive XStmt
  | begin
  | createTbl
  | createIdx (k : Nat)
  | insertRefs (f : CrossFlush)
  | commit
  | rollback
deriving DecidableEq, Repr

/-- Database semantics of the cross reference statements. -/
def applyX (p : PgState XDB) : XStmt → PgState XDB × QRes
  | .begin => ({ committed := p.committed, txn := some p.committed }, .unit)
  | .commit =>
      (match p.txn with
       | some w => { committed := w, txn := none }
       | none => p, .unit)
  | .rollback => ({ p with txn := none }, .unit)
  | .createTbl => (p, .unit)
  | .createIdx _ => (p, .unit)
  | .insertRefs f => p.applyW (fun db => (db ++ f.rows, .unit))

/-- Interpreter state for the cross reference importer. -/
abbrev XSt := RunSt XDB XStmt

def runQX (fq : Nat → Bool) (st : XSt) (stmt : XStmt) :
    XSt × Except Err QRes :=
  runQuery applyX fq st stmt

/-- State after a successful cross reference query. -/
def qOkX (st : XSt) (stmt : XStmt) : XSt :=
  { pg := (applyX st.pg stmt).1, qc := st.qc + 1,
    events := st.events ++ [.queried stmt true] }

/-- State after a failed cross reference query. -/
def qFailX (st : XSt) (stmt : XStmt) : XSt :=
  { st with qc := st.qc + 1, events := st.events ++ [.queried stmt false] }

theorem runQX_split (fq : Nat → Bool) (st : XSt) (stmt : XStmt) :
    runQX fq st stmt = (qFailX st stmt, .error (.q st.qc))
    ∨ runQX fq st stmt = (qOkX st stmt, .ok (applyX st.pg stmt).2) := by
  by_cases h1 : fq st.qc
  · exact Or.inl (by simp [runQX, runQuery, qFailX, h1])
  · exact Or.inr (by simp [runQX, runQuery, qOkX, h1])

theorem runQX_nf (st : XSt) (stmt : XStmt) :
    runQX (fun _ => false) st stmt
      = (qOkX st stmt, .ok (applyX st.pg stmt).2) := by
  simp [runQX, runQuery, qOkX]

/-- Issue the flush statements of one reference file in order. -/
def runFlushes (fq : Nat → Bool) :
    List CrossFlush → XSt → XSt × Except Err Unit
  | [], st => (st, .ok ())
  | f :: rest, st =>
    match runQX fq st (.insertRefs f) with
    | (st1, .error e) => (st1, .error e)
    | (st1, .ok _) => runFlushes fq rest st1

/-- Process the discovered reference files in order, each contributing the
    flushes of the batched writer over its rows (line 192 to 194 of
    generate_cross_references_psql.js). -/
def runFiles (fq : Nat → Bool) :
    List (List CrossRow) → XSt → XSt × Except Err Unit
  | [], st => (st, .ok ())
  | rows :: rest, st =>
    match runFlushes fq (crossRefFlushes rows) st with
    | (st1, .error e) => (st1, .error e)
    | (st1, .ok _) => runFiles fq rest st1

/-- The transactional body of the cross reference importer main (lines 168
    to 196): BEGIN, CREATE TABLE, four CREATE INDEX statements, all the
    files, then COMMIT. -/
def runXBody (fq : Nat → Bool) (files : List (List CrossRow)) (st : XSt) :
    XSt × Except Err Unit :=
  match runQX fq st .begin with
  | (s1, .error e) => (s1, .error e)
  | (s1, .ok _) =>
  match runQX fq s1 .createTbl with
  | (s2, .error e) => (s2, .error e)
  | (s2, .ok _) =>
  match runQX fq s2 (.createIdx 0) with
  | (s3, .error e) => (s3, .error e)
  | (s3, .ok _) =>
  match runQX fq s3 (.createIdx 1) with
  | (s4, .error e) => (s4, .error e)
  | (s4, .ok _) =>
  match runQX fq s4 (.createIdx 2) with
  | (s5, .error e) => (s5, .error e)
  | (s5, .ok _) =>
  match runQX fq s5 (.createIdx 3) with
  | (s6, .error e) => (s6, .error e)
  | (s6, .ok _) =>
  match runFiles fq files s6 with
  | (s7, .error e) => (s7, .error e)
  | (s7, .ok _) =>
  match runQX fq s7 .commit with
  | (s8, .error e) => (s8, .error e)
  | (s8, .ok _) => (s8, .ok ())

/-- Outcome of the cross reference main: normal success, process exit
    code 1 raised from the catch handler, or a fatal rejection escaping
    from the unguarded client.end call in the finally block. -/
inductive Outcome
  | success
  | exit1
  | fatal (e : Err)
deriving DecidableEq, Repr

/-- The execute-mode main of generate_cross_references_psql.js (lines 162
    to 207): on any error the catch block tries ROLLBACK, swallows its
    failure, and calls process.exit(1), which terminates the process
    immediately and skips the finally block, so client.end is never
    attempted on the error path; on success the finally block awaits
    client.end without a guard, so an end failure escapes to the top level
    handler. -/
def crossMainRun (o : Oracle) (files : List (List CrossRow)) (st : XSt) :
    XSt × Outcome :=
  let c := runConnect o.connectFails st
  match c.2 with
  | .error _ => ((runQX o.failQuery c.1 .rollback).1, .exit1)
  | .ok _ =>
    let b := runXBody o.failQuery files c.1
    match b.2 with
    | .error _ => ((runQX o.failQuery b.1 .rollback).1, .exit1)
    | .ok _ =>
      let f := runEnd o.endFails b.1
      match f.2 with
      | .error e => (f.1, .fatal e)
      | .ok _ => (f.1, .success)

/-- Recognizer for a BEGIN query event. -/
def isBeginEvt : Event XStmt → Bool
  | .queried .begin _ => true
  | _ => false

/-- Recognizer for a COMMIT query event. -/
def isCommitEvt : Event XStmt → Bool
  | .queried .commit _ => true
  | _ => false

/-- Recognizer for a client.end event. -/
def isEndedEvt (ev : Event XStmt) : Bool :=
  match ev with
  | .ended _ => true
  | _ => false

theorem applyX_insertRefs (p : PgState XDB) (w : XDB) (h : p.txn = some w)
    (f : CrossFlush) :
    applyX p (.insertRefs f) = (⟨p.committed, some (w ++ f.rows)⟩, .unit) := by
  simp [applyX, applyW_some p _ w h]

theorem applyX_rollback (p : PgState XDB) :
    applyX p .rollback = ({ p with txn := none }, .unit) := rfl

/-- Tail events produced by loops carry only insert statements. -/
def insertOnly (tail : List (Event XStmt)) : Prop :=
  ∀ ev ∈ tail, isBeginEvt ev = false ∧ isCommitEvt ev = false
    ∧ isEndedEvt ev = false

theorem runFlushes_nf :
    ∀ (fs : List CrossFlush) (st : XSt) (w : XDB), st.pg.txn = some w →
    (runFlushes (fun _ => false) fs st).2 = Except.ok ()
    ∧ (runFlushes (fun _ => false) fs st).1.pg.committed = st.pg.committed
    ∧ (∃ w2, (runFlushes (fun _ => false) fs st).1.pg.txn = some w2)
    ∧ (∃ tail, (runFlushes (fun _ => false) fs st).1.events
          = st.events ++ tail ∧ insertOnly tail) := by
  intro fs
  induction fs with
  | nil =>
    intro st w h
    exact ⟨rfl, rfl, ⟨w, h⟩, ⟨[], by simp [runFlushes],
      by intro ev hev; simp at hev⟩⟩
  | cons f rest ih =>
    intro st w h
    simp only [runFlushes, runQX_nf]
    have hstep : qOkX st (.insertRefs f)
        = { pg := ⟨st.pg.committed, some (w ++ f.rows)⟩, qc := st.qc + 1,
            events := st.events ++ [.queried (.insertRefs f) true] } := by
      simp only [qOkX, applyX_insertRefs st.pg w h f]
    rw [hstep]
    obtain ⟨hok, hcm, ⟨w2, htx⟩, ⟨tail, hev, hins⟩⟩ :=
      ih { pg := ⟨st.pg.committed, some (w ++ f.rows)⟩, qc := st.qc + 1,
           events := st.events ++ [.queried (.insertRefs f) true] }
        (w ++ f.rows) rfl
    refine ⟨hok, hcm, ⟨w2, htx⟩, ⟨[.queried (.insertRefs f) true] ++ tail, ?_, ?_⟩⟩
    · rw [hev]
      simp
    · intro ev hev2
      rcases List.mem_append.mp hev2 with hh | hh
      · have : ev = .queried (.insertRefs f) true := by simpa using hh
        subst this
        exact ⟨rfl, rfl, rfl⟩
      · exact hins ev hh

theorem runFiles_nf :
    ∀ (files : List (List CrossRow)) (st : XSt) (w : XDB),
    st.pg.txn = some w →
    (runFiles (fun _ => false) files st).2 = Except.ok ()
    ∧ (runFiles (fun _ => false) files st).1.pg.committed = st.pg.committed
    ∧ (∃ w2, (runFiles (fun _ => false) files st).1.pg.txn = some w2)
    ∧ (∃ tail, (runFiles (fun _ => false) files st).1.events
          = st.events ++ tail ∧ insertOnly tail) := by
  intro files
  induction files with
  | nil =>
    intro st w h
    exact ⟨rfl, rfl, ⟨w, h⟩, ⟨[], by simp [runFiles],
      by intro ev hev; simp at hev⟩⟩
  | cons rows rest ih =>
    intro st w h
    obtain ⟨hok, hcm, ⟨w2, htx⟩, ⟨tail, hev, hins⟩⟩ :=
      runFlushes_nf (crossRefFlushes rows) st w h
    rcases hfl : runFlushes (fun _ => false) (crossRefFlushes rows) st
      with ⟨st1, r1⟩
    rw [hfl] at hok hcm htx hev
    replace hok : r1 = Except.ok () := hok
    subst hok
    simp only [runFiles, hfl]
    obtain ⟨hok2, hcm2, ⟨w3, htx2⟩, ⟨tail2, hev2, hins2⟩⟩ := ih st1 w2 htx
    refine ⟨hok2, by rw [hcm2, hcm], ⟨w3, htx2⟩, ⟨tail ++ tail2, ?_, ?_⟩⟩
    · rw [hev2, hev]
      simp
    · intro ev hh
      rcases List.mem_append.mp hh with hh | hh
      · exact hins ev hh
      · exact hins2 ev hh

theorem runFlushes_keep (fq : Nat → Bool) :
    ∀ (fs : List CrossFlush) (st : XSt) (w : XDB), st.pg.txn = some w →
    (runFlushes fq fs st).1.pg.committed = st.pg.committed
    ∧ ∃ w2, (runFlushes fq fs st).1.pg.txn = some w2 := by
  intro fs
  induction fs with
  | nil => intro st w h; exact ⟨rfl, w, h⟩
  | cons f rest ih =>
    intro st w h
    rcases runQX_split fq st (.insertRefs f) with heq | heq
    · simp only [runFlushes, heq]
      exact ⟨rfl, w, h⟩
    · simp only [runFlushes, heq]
      have h1 : (qOkX st (.insertRefs f)).pg.txn = some (w ++ f.rows) := by
        simp only [qOkX, applyX_insertRefs st.pg w h f]
      have hc1 : (qOkX st (.insertRefs f)).pg.committed = st.pg.committed := by
        simp only [qOkX, applyX_insertRefs st.pg w h f]
      obtain ⟨hcm, w2, htx⟩ := ih _ _ h1
      exact ⟨by rw [hcm, hc1], w2, htx⟩

theorem runFlushes_keep_pair (fq : Nat → Bool) (fs : List CrossFlush)
    (st st2 : XSt) (r : Except Err Unit)
    (hsc : runFlushes fq fs st = (st2, r)) (w : XDB)
    (h : st.pg.txn = some w) :
    st2.pg.committed = st.pg.committed ∧ ∃ w2, st2.pg.txn = some w2 := by
  have hk := runFlushes_keep fq fs st w h
  rw [hsc] at hk
  exact hk

theorem runFiles_keep (fq : Nat → Bool) :
    ∀ (files : List (List CrossRow)) (st : XSt) (w : XDB),
    st.pg.txn = some w →
    (runFiles fq files st).1.pg.committed = st.pg.committed
    ∧ ∃ w2, (runFiles fq files st).1.pg.txn = some w2 := by
  intro files
  induction files with
  | nil => intro st w h; exact ⟨rfl, w, h⟩
  | cons rows rest ih =>
    intro st w h
    rcases hfl : runFlushes fq (crossRefFlushes rows) st with ⟨st1, r1⟩
    obtain ⟨hcm, w2, htx⟩ := runFlushes_keep_pair fq _ _ _ _ hfl _ h
    simp only [runFiles, hfl]
    cases r1 with
    | error e => exact ⟨hcm, w2, htx⟩
    | ok u =>
      obtain ⟨hcm2, w3, htx2⟩ := ih st1 w2 htx
      exact ⟨by rw [hcm2, hcm], w3, htx2⟩

theorem runFiles_keep_pair (fq : Nat → Bool) (files : List (List CrossRow))
    (st st2 : XSt) (r : Except Err Unit)
    (hsc : runFiles fq files st = (st2, r)) (w : XDB)
    (h : st.pg.txn = some w) :
    st2.pg.committed = st.pg.committed ∧ ∃ w2, st2.pg.txn = some w2 := by
  have hk := runFiles_keep fq files st w h
  rw [hsc] at hk
  exact hk

/-- Either the cross reference body left the committed table untouched, or
    it ran to completion. -/
theorem runXBody_outcome (fq : Nat → Bool) (files : List (List CrossRow))
    (st : XSt) :
    (runXBody fq files st).1.pg.committed = st.pg.committed
    ∨ (runXBody fq files st).2 = Except.ok () := by
  rcases runQX_split fq st .begin with h1 | h1
  · simp only [runXBody, h1]
    exact Or.inl rfl
  · simp only [runXBody, h1]
    rcases runQX_split fq (qOkX st .begin) .createTbl with h2 | h2
    · simp only [h2]
      exact Or.inl rfl
    · simp only [h2]
      rcases runQX_split fq (qOkX (qOkX st .begin) .createTbl)
        (.createIdx 0) with h3 | h3
      · simp only [h3]
        exact Or.inl rfl
      · simp only [h3]
        rcases runQX_split fq (qOkX (qOkX (qOkX st .begin) .createTbl)
          (.createIdx 0)) (.createIdx 1) with h4 | h4
        · simp only [h4]
          exact Or.inl rfl
        · simp only [h4]
          rcases runQX_split fq (qOkX (qOkX (qOkX (qOkX st .begin)
            .createTbl) (.createIdx 0)) (.createIdx 1)) (.createIdx 2)
            with h5 | h5
          · simp only [h5]
            exact Or.inl rfl
          · simp only [h5]
            rcases runQX_split fq (qOkX (qOkX (qOkX (qOkX (qOkX st .begin)
              .createTbl) (.createIdx 0)) (.createIdx 1)) (.createIdx 2))
              (.createIdx 3) with h6 | h6
            · simp only [h6]
              exact Or.inl rfl
            · simp only [h6]
              rcases hrc : runFiles fq files (qOkX (qOkX (qOkX (qOkX (qOkX
                (qOkX st .begin) .createTbl) (.createIdx 0)) (.createIdx 1))
                (.createIdx 2)) (.createIdx 3)) with ⟨st7, r7⟩
              obtain ⟨hcm7, w7, htx7⟩ :=
                runFiles_keep_pair fq _ _ _ _ hrc st.pg.committed rfl
              cases r7 with
              | error e => exact Or.inl (hcm7.trans rfl)
              | ok u =>
                rcases runQX_split fq st7 .commit with h8 | h8
                · simp only [h8]
                  exact Or.inl (hcm7.trans rfl)
                · simp only [h8]
                  exact Or.inr trivial

/-- A failure-free cross reference body commits, closes the transaction,
    and its added events are BEGIN, the DDL, only inserts, then COMMIT. -/
theorem runXBody_nf (files : List (List CrossRow)) (st : XSt) :
    (runXBody (fun _ => false) files st).2 = Except.ok ()
    ∧ (runXBody (fun _ => false) files st).1.pg.txn = none
    ∧ ∃ tail, (runXBody (fun _ => false) files st).1.events
        = st.events ++ [.queried .begin true, .queried .createTbl true,
            .queried (.createIdx 0) true, .queried (.createIdx 1) true,
            .queried (.createIdx 2) true, .queried (.createIdx 3) true]
          ++ tail ++ [.queried .commit true]
        ∧ insertOnly tail := by
  simp only [runXBody, runQX_nf]
  rcases hfl : runFiles (fun _ => false) files (qOkX (qOkX (qOkX (qOkX (qOkX
      (qOkX st .begin) .createTbl) (.createIdx 0)) (.createIdx 1))
      (.createIdx 2)) (.createIdx 3)) with ⟨st7, r7⟩
  have hnf := runFiles_nf files (qOkX (qOkX (qOkX (qOkX (qOkX
      (qOkX st .begin) .createTbl) (.createIdx 0)) (.createIdx 1))
      (.createIdx 2)) (.createIdx 3)) st.pg.committed rfl
  rw [hfl] at hnf
  obtain ⟨hok, hcm, ⟨w2, htx⟩, ⟨tail, hev, hins⟩⟩ := hnf
  replace hok : r7 = Except.ok () := hok
  subst hok
  replace htx : st7.pg.txn = some w2 := htx
  simp only [runQX_nf]
  have hcommit : applyX st7.pg .commit = (⟨w2, none⟩, .unit) := by
    simp [applyX, htx]
  refine ⟨trivial, ?_, ⟨tail, ?_, hins⟩⟩
  · show (applyX st7.pg XStmt.commit).1.txn = none
    rw [hcommit]
  · show st7.events ++ [Event.queried XStmt.commit true] = _
    replace hev : st7.events = _ := hev
    rw [hev]
    simp [qOkX]

/-- The client state right after a successful connect (annotation
    importer). -/
def postConnectX (st : XSt) : XSt :=
  { st with events := st.events ++ [Event.connected true] }

/-- C10: in execute mode the annotation importer wraps all discovered
    reference files in one single transaction. In a failure-free run the
    outcome is success, exactly one BEGIN and one COMMIT are issued, the
    BEGIN is the first statement right after connecting and before any
    insert, and the COMMIT is the last statement after all files. When
    processing any file fails, the run exits with code 1 and the committed
    table is exactly what it was before the run, discarding the rows of
    every previously processed file: no per-file partial commits exist. -/
theorem crossref_one_transaction :
    (∀ (files : List (List CrossRow)) (db0 : XDB),
      (crossMainRun nfO files ⟨⟨db0, none⟩, 0, []⟩).2 = Outcome.success
      ∧ ((crossMainRun nfO files ⟨⟨db0, none⟩, 0, []⟩).1.events.filter
          isBeginEvt).length = 1
      ∧ ((crossMainRun nfO files ⟨⟨db0, none⟩, 0, []⟩).1.events.filter
          isCommitEvt).length = 1
      ∧ (crossMainRun nfO files ⟨⟨db0, none⟩, 0, []⟩).1.events.take 2
          = [.connected true, .queried .begin true]
      ∧ ((crossMainRun nfO files
            ⟨⟨db0, none⟩, 0, []⟩).1.events.dropLast).getLast?
          = some (.queried .commit true))
    ∧ (∀ (fq : Nat → Bool) (ef : Bool) (files : List (List CrossRow))
        (st : XSt) (e : Err),
        (runXBody fq files (postConnectX st)).2 = Except.error e →
        (crossMainRun ⟨false, fq, ef⟩ files st).2 = Outcome.exit1
        ∧ (crossMainRun ⟨false, fq, ef⟩ files st).1.pg.committed
            = st.pg.committed) := by
  constructor
  · intro files db0
    rcases hb : runXBody (fun _ => false) files
        (⟨⟨db0, none⟩, 0, [Event.connected true]⟩ : XSt) with ⟨st8, r8⟩
    have hnf := runXBody_nf files (⟨⟨db0, none⟩, 0, [Event.connected true]⟩ : XSt)
    rw [hb] at hnf
    obtain ⟨hok, htx, ⟨tail, hev, hins⟩⟩ := hnf
    replace hok : r8 = Except.ok () := hok
    subst hok
    replace hev : st8.events
        = [Event.connected true] ++ [.queried .begin true,
            .queried .createTbl true, .queried (.createIdx 0) true,
            .queried (.createIdx 1) true, .queried (.createIdx 2) true,
            .queried (.createIdx 3) true] ++ tail
          ++ [.queried .commit true] := hev
    have hrun : crossMainRun nfO files ⟨⟨db0, none⟩, 0, []⟩
        = (⟨st8.pg, st8.qc, st8.events ++ [Event.ended true]⟩, .success) := by
      simp only [crossMainRun, nfO, runConnect_false, runEnd_false,
        List.nil_append, hb]
    rw [hrun]
    have htailB : tail.filter isBeginEvt = [] :=
      List.filter_eq_nil_iff.mpr (fun ev hevm => by simp [(hins ev hevm).1])
    have htailC : tail.filter isCommitEvt = [] :=
      List.filter_eq_nil_iff.mpr (fun ev hevm => by simp [(hins ev hevm).2.1])
    refine ⟨rfl, ?_, ?_, ?_, ?_⟩
    · show ((st8.events ++ [Event.ended true]).filter isBeginEvt).length = 1
      rw [hev]
      simp [List.filter_append, htailB, isBeginEvt]
    · show ((st8.events ++ [Event.ended true]).filter isCommitEvt).length = 1
      rw [hev]
      simp [List.filter_append, htailC, isCommitEvt]
    · show (st8.events ++ [Event.ended true]).take 2 = _
      rw [hev]
      simp
    · show ((st8.events ++ [Event.ended true]).dropLast).getLast? = _
      rw [List.dropLast_concat, hev]
      rw [List.getLast?_concat]
  · intro fq ef files st e hfail
    rcases hb : runXBody fq files (postConnectX st) with ⟨st8, r8⟩
    rw [hb] at hfail
    replace hfail : r8 = Except.error e := hfail
    subst hfail
    have hout := runXBody_outcome fq files (postConnectX st)
    rw [hb] at hout
    replace hout : st8.pg.committed = st.pg.committed := by
      rcases hout with hcm | hok
      · exact hcm
      · exact absurd hok (by simp)
    have hrun : crossMainRun ⟨false, fq, ef⟩ files st
        = ((runQX fq st8 .rollback).1, .exit1) := by
      simp only [crossMainRun, runConnect_false]
      rw [show ({ st with events := st.events ++ [Event.connected true] } : XSt)
          = postConnectX st from rfl, hb]
    rw [hrun]
    refine ⟨rfl, ?_⟩
    rcases runQX_split fq st8 .rollback with hq | hq
    · rw [hq]
      exact hout
    · rw [hq, qOkX, applyX_rollback]
      exact hout

/-- C10 witness: the single-transaction facts at one concrete file list and
    one concrete failing oracle. -/
theorem crossref_one_transaction_inst :
    ((crossMainRun nfO [[⟨"a", 1, 1, "b", 2, 3, 4, 5⟩]]
        ⟨⟨[], none⟩, 0, []⟩).2 = Outcome.success
      ∧ ((crossMainRun nfO [[⟨"a", 1, 1, "b", 2, 3, 4, 5⟩]]
          ⟨⟨[], none⟩, 0, []⟩).1.events.filter isBeginEvt).length = 1)
    ∧ ((crossMainRun ⟨false, fun k => k == 6, false⟩
        [[⟨"a", 1, 1, "b", 2, 3, 4, 5⟩]] ⟨⟨[], none⟩, 0, []⟩).2
          = Outcome.exit1
      ∧ (crossMainRun ⟨false, fun k => k == 6, false⟩
          [[⟨"a", 1, 1, "b", 2, 3, 4, 5⟩]]
          ⟨⟨[], none⟩, 0, []⟩).1.pg.committed = ([] : XDB)) := by
  have h1 := crossref_one_transaction.1 [[⟨"a", 1, 1, "b", 2, 3, 4, 5⟩]] []
  have h2 := crossref_one_transaction.2 (fun k => k == 6) false
    [[⟨"a", 1, 1, "b", 2, 3, 4, 5⟩]] ⟨⟨[], none⟩, 0, []⟩ (.q 6) (by decide)
  exact ⟨⟨h1.1, h1.2.1⟩, h2⟩

/-- C7 counterexample: the cross reference importer main does not release
    the connection on every terminal path, and a release failure is
    propagated: when BEGIN fails, the catch handler calls process.exit(1)
    and the finally block never runs, so no client.end event exists in the
    trace; and on a successful import whose client.end fails, the caller
    sees the end failure instead of the import success. -/
theorem connection_release_cex :
    ((crossMainRun ⟨false, fun k => k == 0, false⟩ [[]]
        ⟨⟨[], none⟩, 0, []⟩).1.events.filter isEndedEvt = []
      ∧ (crossMainRun ⟨false, fun k => k == 0, false⟩ [[]]
          ⟨⟨[], none⟩, 0, []⟩).2 = Outcome.exit1)
    ∧ (crossMainRun ⟨false, fun _ => false, true⟩ [[]]
        ⟨⟨[], none⟩, 0, []⟩).2 = Outcome.fatal .endFail := by
  decide

/-- Statements of the emitted SQL script (part_000 lines 221 to 339);
    string fields hold the escaped literal text exactly as written to the
    file. Table index 0 is translation, 1 book, 2 chapter, 3 verse. -/
inductive SStmt
  | dropTbl (k : Nat)
  | createTbl (k : Nat)
  | createIdx (k : Nat)
  | insertTranslation (code name language license : String)
  | insertBook (code : String) (name : String) (num : Nat)
  | insertChapter (bookName : String) (code : String) (num : Int)
  | insertVerse (bookName : String) (code : String) (chNum : Int)
      (vNum : Int) (text : String)
deriving DecidableEq, Repr

/-- The statements emitted for one chapter: one chapter insert resolving
    the book by name, then one verse insert per verse resolving the
    chapter by book name and chapter number (lines 316 to 335). -/
def emitChapterStmts (nfkd : String → String) (escName escCode : String)
    (ch : Chapter) : List SStmt :=
  SStmt.insertChapter escName escCode ch.chapter ::
    ch.verses.map (fun v =>
      SStmt.insertVerse escName escCode ch.chapter v.verse
        (esc (normNG nfkd v.text)))

/-- The statements emitted for one book: the book insert resolving the
    translation by code, then its chapters (lines 307 to 338). -/
def emitBookStmts (nfkd : String → String) (escCode : String) (i : Nat)
    (b : Book) : List SStmt :=
  SStmt.insertBook escCode (esc b.name) (i + 1)
    :: b.chapters.flatMap (emitChapterStmts nfkd (esc b.name) escCode)

/-- The indexed book emission loop. -/
def emitBooks (nfkd : String → String) (escCode : String) :
    Nat → List Book → List SStmt
  | _, [] => []
  | i, b :: rest =>
      emitBookStmts nfkd escCode i b ++ emitBooks nfkd escCode (i + 1) rest

/-- The full emitted script of generatePostgreSQL: drops in reverse
    dependency order, the translation DDL and insert, the remaining DDL and
    indexes, then the data (lines 243 to 339). -/
def emitDoc (nfkd : String → String) (doc : TranslationData)
    (code name language license : String) : List SStmt :=
  [SStmt.dropTbl 3, SStmt.dropTbl 2, SStmt.dropTbl 1, SStmt.dropTbl 0,
   SStmt.createTbl 0,
   SStmt.insertTranslation (esc code) (esc name) (esc language) (esc license),
   SStmt.createTbl 1, SStmt.createTbl 2, SStmt.createTbl 3,
   SStmt.createIdx 0, SStmt.createIdx 1, SStmt.createIdx 2]
  ++ emitBooks nfkd (esc code) 0 doc.books

/-- DROP TABLE semantics: the named table is cleared and its serial
    counter restarts. -/
def clearTbl (k : Nat) (db : DB) : DB :=
  match k with
  | 0 => { db with translations := [] }
  | 1 => { db with books := [] }
  | 2 => { db with chapters := [] }
  | _ => { db with verses := [] }

/-- A scalar subquery: exactly one row yields a value, zero rows give NULL
    into a NOT NULL column and more than one row is an execution error, so
    both are errors. -/
def scalar (l : List Nat) : Except Unit Nat :=
  match l with
  | [x] => Except.ok x
  | _ => Except.error ()

/-- SELECT id FROM translation WHERE code = given. -/
def lookupTid (tbl : List TranslationRow) (code : String) : List Nat :=
  (tbl.filter (fun r => r.code == code)).map (fun r => r.id)

/-- SELECT id FROM book WHERE name = given AND translation_id = tid. -/
def lookupBid (books : List BookRow) (name : String) (tid : Nat) :
    List Nat :=
  (books.filter (fun b => b.name == name && b.translationId == tid)).map
    (fun b => b.id)

/-- SELECT c.id FROM chapter c JOIN book b ON c.book_id = b.id WHERE
    b.name = given AND c.chapter_number = given AND b.translation_id =
    tid. -/
def lookupCid (chapters : List ChapterRow) (books : List BookRow)
    (bookName : String) (tid : Nat) (chNum : Int) : List Nat :=
  (chapters.filter (fun c => c.chapterNumber == chNum
    && books.any (fun b => b.id == c.bookId && b.name == bookName
        && b.translationId == tid))).map (fun c => c.id)

/-- Execute one emitted statement against the database; executing a string
    literal reads back the unescaped text. -/
def execS (db : DB) : SStmt → Except Unit DB
  | .dropTbl k => Except.ok (clearTbl k db)
  | .createTbl _ => Except.ok db
  | .createIdx _ => Except.ok db
  | .insertTranslation c n l lic =>
      Except.ok { db with translations := db.translations
        ++ [⟨db.translations.length + 1, unesc c, unesc n, unesc l,
             unesc lic⟩] }
  | .insertBook c n num => do
      let tid ← scalar (lookupTid db.translations (unesc c))
      Except.ok { db with books := db.books
        ++ [⟨db.books.length + 1, tid, unesc n, num⟩] }
  | .insertChapter bn c num => do
      let tid ← scalar (lookupTid db.translations (unesc c))
      let bid ← scalar (lookupBid db.books (unesc bn) tid)
      Except.ok { db with chapters := db.chapters
        ++ [⟨db.chapters.length + 1, bid, num⟩] }
  | .insertVerse bn c chn vn t => do
      let tid ← scalar (lookupTid db.translations (unesc c))
      let cid ← scalar (lookupCid db.chapters db.books (unesc bn) tid chn)
      Except.ok { db with verses := db.verses
        ++ [⟨db.verses.length + 1, cid, vn, unesc t⟩] }

/-- Execute the script: statements are independent, a failing statement is
    reported and skipped, execution continues. -/
def runScript (stmts : List SStmt) (db0 : DB) : DB :=
  stmts.foldl (fun db s =>
    match execS db s with
    | Except.ok d => d
    | Except.error _ => db) db0

theorem runScript_append (a b : List SStmt) (db : DB) :
    runScript (a ++ b) db = runScript b (runScript a db) := by
  simp [runScript, List.foldl_append]

theorem runScript_cons (s : SStmt) (rest : List SStmt) (db : DB) :
    runScript (s :: rest) db
      = runScript rest (match execS db s with
          | Except.ok d => d
          | Except.error _ => db) := by
  simp [runScript]

/-- A document with two identically named books, each with one chapter. -/
def dupDoc : TranslationData :=
  ⟨[⟨"A", [⟨1, []⟩]⟩, ⟨"A", [⟨1, []⟩]⟩]⟩

/-- C5 counterexample: with two books of the same name, the emitted script
    resolves chapter parents by book name and the second chapter insert
    hits an ambiguous scalar subquery and fails, while direct execution
    chains generated ids and succeeds: the final table contents of the two
    modes differ, so the round trip equivalence does not hold for every
    source document. -/
theorem mode_roundtrip_cex :
    runScript (emitDoc (fun s => s) dupDoc "X" "N" "en" "L") emptyDB
      ≠ (runGenerate (fun s => s) nfO dupDoc "X" "N" "en" "L"
          emptySt).1.pg.committed := by
  decide

theorem importChapterPure_books (nfkd : String → String) (bid : Nat)
    (db : DB) (ch : Chapter) :
    (importChapterPure nfkd bid db ch).books = db.books := by
  by_cases hv : ch.verses.length > 0 <;>
    simp [importChapterPure, hv, DB.insertChapter, DB.insertVerses]

theorem foldl_chapters_books (nfkd : String → String) (bid : Nat)
    (chs : List Chapter) :
    ∀ db : DB,
    (chs.foldl (importChapterPure nfkd bid) db).books = db.books := by
  induction chs with
  | nil => intro db; rfl
  | cons ch rest ih =>
    intro db
    rw [List.foldl_cons, ih, importChapterPure_books]

theorem importBookPure_books (nfkd : String → String) (tid : Nat) (db : DB)
    (i : Nat) (b : Book) :
    (importBookPure nfkd tid db i b).books
      = db.books ++ [⟨db.books.length + 1, tid, b.name, i + 1⟩] := by
  simp only [importBookPure]
  rw [foldl_chapters_books]
  rfl

theorem importChapterPure_chapters_sub (nfkd : String → String) (bid : Nat)
    (db : DB) (ch : Chapter) :
    ∀ c ∈ (importChapterPure nfkd bid db ch).chapters,
      c ∈ db.chapters ∨ c.bookId = bid := by
  intro c hc
  by_cases hv : ch.verses.length > 0 <;>
    simp only [importChapterPure, hv, if_pos, if_neg, DB.insertChapter,
      DB.insertVerses, if_true, if_false] at hc
  · rcases List.mem_append.mp hc with hh | hh
    · exact Or.inl hh
    · right
      have : c = ⟨db.chapters.length + 1, bid, ch.chapter⟩ := by simpa using hh
      rw [this]
  · rcases List.mem_append.mp hc with hh | hh
    · exact Or.inl hh
    · right
      have : c = ⟨db.chapters.length + 1, bid, ch.chapter⟩ := by simpa using hh
      rw [this]

theorem foldl_chapters_chapters_sub (nfkd : String → String) (bid : Nat)
    (chs : List Chapter) :
    ∀ (db : DB), ∀ c ∈ (chs.foldl (importChapterPure nfkd bid) db).chapters,
      c ∈ db.chapters ∨ c.bookId = bid := by
  induction chs with
  | nil => intro db c hc; exact Or.inl hc
  | cons ch rest ih =>
    intro db c hc
    rw [List.foldl_cons] at hc
    rcases ih _ c hc with hh | hh
    · exact importChapterPure_chapters_sub nfkd bid db ch c hh
    · exact Or.inr hh

theorem importBookPure_chapters_sub (nfkd : String → String) (tid : Nat)
    (db : DB) (i : Nat) (b : Book) :
    ∀ c ∈ (importBookPure nfkd tid db i b).chapters,
      c ∈ db.chapters ∨ c.bookId = db.books.length + 1 := by
  intro c hc
  simp only [importBookPure] at hc
  rcases foldl_chapters_chapters_sub nfkd _ b.chapters _ c hc with hh | hh
  · exact Or.inl hh
  · exact Or.inr hh

theorem exc_bind_ok {a b : Type} (x : a) (f : a → Except Unit b) :
    (Except.ok x : Except Unit a) >>= f = f x := rfl

theorem execS_insertBook (code name language license : String) (db : DB)
    (h1 : db.translations = [⟨1, code, name, language, license⟩])
    (n : String) (k : Nat) :
    execS db (SStmt.insertBook (esc code) (esc n) k)
      = Except.ok { db with books := db.books
          ++ [⟨db.books.length + 1, 1, n, k⟩] } := by
  simp [execS, unesc_esc, h1, lookupTid, scalar, exc_bind_ok]

theorem execS_insertChapter (code name language license bn : String)
    (db : DB) (bid : Nat)
    (h1 : db.translations = [⟨1, code, name, language, license⟩])
    (hb : lookupBid db.books bn 1 = [bid]) (n : Int) :
    execS db (SStmt.insertChapter (esc bn) (esc code) n)
      = Except.ok { db with chapters := db.chapters
          ++ [⟨db.chapters.length + 1, bid, n⟩] } := by
  simp [execS, unesc_esc, h1, lookupTid, scalar, hb, exc_bind_ok]

theorem execS_insertVerse (code name language license bn : String)
    (db : DB) (cid : Nat) (n : Int)
    (h1 : db.translations = [⟨1, code, name, language, license⟩])
    (hv : lookupCid db.chapters db.books bn 1 n = [cid])
    (vn : Int) (t : String) :
    execS db (SStmt.insertVerse (esc bn) (esc code) n vn (esc t))
      = Except.ok { db with verses := db.verses
          ++ [⟨db.verses.length + 1, cid, vn, t⟩] } := by
  simp [execS, unesc_esc, h1, lookupTid, scalar, hv, exc_bind_ok]

theorem lookupBid_single {books : List BookRow} {name : String}
    {tid bid : Nat} (h : lookupBid books name tid = [bid]) :
    ∃ row, row ∈ books
      ∧ (row.name == name && row.translationId == tid) = true
      ∧ row.id = bid := by
  unfold lookupBid at h
  cases hf : books.filter
      (fun b => b.name == name && b.translationId == tid) with
  | nil => rw [hf] at h; simp at h
  | cons r rest =>
    rw [hf] at h
    simp only [List.map_cons, List.cons.injEq] at h
    have hmem : r ∈ books.filter
        (fun b => b.name == name && b.translationId == tid) := by
      rw [hf]
      exact List.mem_cons_self r rest
    exact ⟨r, (List.mem_filter.mp hmem).1, (List.mem_filter.mp hmem).2, h.1⟩

theorem runScript_cons_ok (s : SStmt) (rest : List SStmt) (db d : DB)
    (h : execS db s = Except.ok d) :
    runScript (s :: rest) db = runScript rest d := by
  simp [runScript, h]

theorem normNG_eq_normalizeText (nfkd : String → String)
    (hnf : nfkd "" = "") (t : String) :
    normNG nfkd t = normalizeText nfkd (some t) := by
  by_cases ht : t = ""
  · subst ht
    show nfkd (replaceAe "") = ""
    have : replaceAe "" = "" := rfl
    rw [this, hnf]
  · simp [normNG, normalizeText, ht]

theorem verseParams_eq (nfkd : String → String) (hnf : nfkd "" = "")
    (vs : List Verse) :
    vs.map (fun v => (v.verse, normNG nfkd v.text)) = verseParams nfkd vs := by
  simp only [verseParams]
  exact List.map_congr_left
    (fun v _ => by rw [normNG_eq_normalizeText nfkd hnf])

theorem execVerses (nfkd : String → String)
    (code name language license bn : String) (n : Int) (cid : Nat) :
    ∀ (vs : List Verse) (db : DB),
    db.translations = [⟨1, code, name, language, license⟩] →
    lookupCid db.chapters db.books bn 1 n = [cid] →
    runScript (vs.map (fun v => SStmt.insertVerse (esc bn) (esc code)
        n v.verse (esc (normNG nfkd v.text)))) db
      = { db with verses := db.verses ++ verseRowsFrom (db.verses.length + 1) cid (vs.map (fun v => (v.verse, normNG nfkd v.text))) } := by
  intro vs
  induction vs with
  | nil =>
    intro db h1 hv
    simp [runScript, verseRowsFrom]
  | cons v rest ih =>
    intro db h1 hv
    simp only [List.map_cons]
    rw [runScript_cons_ok _ _ _ _
      (execS_insertVerse code name language license bn db cid n h1 hv
        v.verse (normNG nfkd v.text))]
    rw [ih { db with verses := db.verses
        ++ [⟨db.verses.length + 1, cid, v.verse, normNG nfkd v.text⟩] }
      h1 hv]
    simp only [verseRowsFrom]
    simp [List.append_assoc]

theorem importChapterPure_chapters (nfkd : String → String) (bid : Nat)
    (db : DB) (ch : Chapter) :
    (importChapterPure nfkd bid db ch).chapters
      = db.chapters ++ [⟨db.chapters.length + 1, bid, ch.chapter⟩] := by
  by_cases hv : ch.verses.length > 0 <;>
    simp [importChapterPure, hv, DB.insertChapter, DB.insertVerses]

theorem execChapters (nfkd : String → String) (hnf : nfkd "" = "")
    (code name language license bn : String) (bid : Nat) :
    ∀ (chs : List Chapter) (db : DB),
    db.translations = [⟨1, code, name, language, license⟩] →
    lookupBid db.books bn 1 = [bid] →
    (chs.map (fun c => c.chapter)).Nodup →
    (∀ ch ∈ chs, lookupCid db.chapters db.books bn 1 ch.chapter = []) →
    runScript (chs.flatMap (emitChapterStmts nfkd (esc bn) (esc code))) db
      = chs.foldl (importChapterPure nfkd bid) db := by
  intro chs
  induction chs with
  | nil =>
    intro db h1 hb hnd hE
    simp [runScript]
  | cons ch rest ih =>
    intro db h1 hb hnd hE
    rw [List.flatMap_cons, runScript_append]
    have hold : db.chapters.filter (fun c => c.chapterNumber == ch.chapter
        && db.books.any (fun b => b.id == c.bookId && b.name == bn
            && b.translationId == 1)) = [] := by
      have h0 := hE ch (List.mem_cons_self ch rest)
      unfold lookupCid at h0
      exact List.map_eq_nil_iff.mp h0
    obtain ⟨row0, hrmem, hrq, hrid⟩ := lookupBid_single hb
    rw [Bool.and_eq_true] at hrq
    have hv2 : lookupCid (db.chapters
        ++ [⟨db.chapters.length + 1, bid, ch.chapter⟩]) db.books bn 1
        ch.chapter = [db.chapters.length + 1] := by
      unfold lookupCid
      rw [List.filter_append, hold]
      have hany : db.books.any (fun b =>
          b.id == (⟨db.chapters.length + 1, bid, ch.chapter⟩ :
            ChapterRow).bookId
          && b.name == bn && b.translationId == 1) = true := by
        refine List.any_eq_true.mpr ⟨row0, hrmem, ?_⟩
        simp [hrid, hrq.1, hrq.2]
      simp [hany]
    have h2 : runScript (emitChapterStmts nfkd (esc bn) (esc code) ch) db
        = importChapterPure nfkd bid db ch := by
      simp only [emitChapterStmts]
      rw [runScript_cons_ok _ _ _ _
        (execS_insertChapter code name language license bn db bid h1 hb
          ch.chapter)]
      rw [execVerses nfkd code name language license bn ch.chapter
        (db.chapters.length + 1)
        ch.verses
        { db with chapters := db.chapters
            ++ [⟨db.chapters.length + 1, bid, ch.chapter⟩] }
        h1 hv2]
      by_cases hv : ch.verses.length > 0
      · simp [importChapterPure, hv, DB.insertChapter, DB.insertVerses,
          verseParams_eq nfkd hnf, QRes.asId]
      · have hvs : ch.verses = [] := by
          cases hvempty : ch.verses with
          | nil => rfl
          | cons a b => rw [hvempty] at hv; simp at hv
        simp [importChapterPure, hv, DB.insertChapter, hvs, verseRowsFrom]
    rw [h2, List.foldl_cons]
    have hnd2 : (∀ x ∈ rest, ¬x.chapter = ch.chapter)
        ∧ (rest.map (fun c => c.chapter)).Nodup := by simpa using hnd
    refine ih (importChapterPure nfkd bid db ch) ?_ ?_ ?_ ?_
    · rw [importChapterPure_translations]
      exact h1
    · rw [importChapterPure_books]
      exact hb
    · exact hnd2.2
    · intro ch2 hmem
      rw [importChapterPure_chapters, importChapterPure_books]
      unfold lookupCid
      rw [List.filter_append]
      have hold2 : db.chapters.filter (fun c =>
          c.chapterNumber == ch2.chapter
          && db.books.any (fun b => b.id == c.bookId && b.name == bn
              && b.translationId == 1)) = [] := by
        have h0 := hE ch2 (List.mem_cons_of_mem ch hmem)
        unfold lookupCid at h0
        exact List.map_eq_nil_iff.mp h0
      rw [hold2]
      have hne : ch.chapter ≠ ch2.chapter := fun he => hnd2.1 ch2 hmem he.symm
      simp [hne]

theorem execBooks (nfkd : String → String) (hnf : nfkd "" = "")
    (code name language license : String) :
    ∀ (bs : List Book) (i : Nat) (db : DB),
    db.translations = [⟨1, code, name, language, license⟩] →
    (bs.map (fun b => b.name)).Nodup →
    (∀ b ∈ bs, (b.chapters.map (fun c => c.chapter)).Nodup) →
    (∀ b ∈ bs, ∀ row ∈ db.books, row.name ≠ b.name) →
    (∀ c ∈ db.chapters, c.bookId ≤ db.books.length) →
    runScript (emitBooks nfkd (esc code) i bs) db
      = importBooksPure nfkd 1 i bs db := by
  intro bs
  induction bs with
  | nil =>
    intro i db h1 hnd hch hfresh hbound
    simp [emitBooks, runScript, importBooksPure]
  | cons b rest ih =>
    intro i db h1 hnd hch hfresh hbound
    have hnd2 : (∀ x ∈ rest, ¬x.name = b.name)
        ∧ (rest.map (fun b => b.name)).Nodup := by simpa using hnd
    show runScript (emitBookStmts nfkd (esc code) i b
        ++ emitBooks nfkd (esc code) (i + 1) rest) db
      = importBooksPure nfkd 1 (i + 1) rest (importBookPure nfkd 1 db i b)
    rw [runScript_append]
    have hb1 : lookupBid (db.books
        ++ [⟨db.books.length + 1, 1, b.name, i + 1⟩]) b.name 1
        = [db.books.length + 1] := by
      unfold lookupBid
      rw [List.filter_append]
      have hold : db.books.filter (fun r =>
          r.name == b.name && r.translationId == 1) = [] := by
        rw [List.filter_eq_nil_iff]
        intro row hrow
        simp [hfresh b (List.mem_cons_self b rest) row hrow]
      rw [hold]
      simp
    have hE : ∀ ch ∈ b.chapters,
        lookupCid db.chapters (db.books
          ++ [⟨db.books.length + 1, 1, b.name, i + 1⟩]) b.name 1 ch.chapter
          = [] := by
      intro ch hchm
      unfold lookupCid
      apply List.map_eq_nil_iff.mpr
      rw [List.filter_eq_nil_iff]
      intro c hc
      have hanyf : ((db.books
          ++ ([⟨db.books.length + 1, 1, b.name, i + 1⟩]
            : List BookRow)).any (fun bk =>
            bk.id == c.bookId && bk.name == b.name
              && bk.translationId == 1)) = false := by
        rw [List.any_append]
        have hA : db.books.any (fun bk => bk.id == c.bookId
            && bk.name == b.name && bk.translationId == 1) = false := by
          rw [List.any_eq_false]
          intro bk hbk
          simp [hfresh b (List.mem_cons_self b rest) bk hbk]
        have hB : ([⟨db.books.length + 1, 1, b.name, i + 1⟩]
            : List BookRow).any (fun bk => bk.id == c.bookId
              && bk.name == b.name && bk.translationId == 1) = false := by
          have hne : db.books.length + 1 ≠ c.bookId := by
            have := hbound c hc
            omega
          simp [hne]
        rw [hA, hB]
        rfl
      simp [hanyf]
    have hstep : runScript (emitBookStmts nfkd (esc code) i b) db
        = importBookPure nfkd 1 db i b := by
      simp only [emitBookStmts]
      rw [runScript_cons_ok _ _ _ _
        (execS_insertBook code name language license db h1 b.name (i + 1))]
      rw [execChapters nfkd hnf code name language license b.name
        (db.books.length + 1) b.chapters
        { db with books := db.books
            ++ [⟨db.books.length + 1, 1, b.name, i + 1⟩] }
        h1 hb1 (hch b (List.mem_cons_self b rest)) hE]
      rfl
    rw [hstep]
    refine ih (i + 1) (importBookPure nfkd 1 db i b) ?_ ?_ ?_ ?_ ?_
    · rw [importBookPure_translations]
      exact h1
    · exact hnd2.2
    · exact fun b2 hb2 => hch b2 (List.mem_cons_of_mem b hb2)
    · intro b2 hb2 row hrow
      rw [importBookPure_books] at hrow
      rcases List.mem_append.mp hrow with hh | hh
      · exact hfresh b2 (List.mem_cons_of_mem b hb2) row hh
      · have hrw : row = ⟨db.books.length + 1, 1, b.name, i + 1⟩ := by
          simpa using hh
        rw [hrw]
        intro he
        exact hnd2.1 b2 hb2 he.symm
    · intro c hc
      rw [importBookPure_books, List.length_append]
      have h2 : ([⟨db.books.length + 1, 1, b.name, i + 1⟩]
          : List BookRow).length = 1 := rfl
      rw [h2]
      rcases importBookPure_chapters_sub nfkd 1 db i b c hc with hh | hh
      · have := hbound c hh
        omega
      · omega

/-- C5: the amended round trip. If the NFKD pass fixes the empty string,
    the document's book names are pairwise distinct and each book's
    chapter numbers are pairwise distinct, then executing the emitted
    script against an empty database yields exactly the committed table
    contents of a failure free direct execution run on an empty database,
    generated identifiers included. Without the distinctness hypotheses
    the equivalence fails, as the counterexample with a duplicated book
    name shows. -/
theorem mode_roundtrip (nfkd : String → String) (hnf : nfkd "" = "")
    (doc : TranslationData) (code name language license : String)
    (hbn : (doc.books.map (fun b => b.name)).Nodup)
    (hcn : ∀ b ∈ doc.books, (b.chapters.map (fun c => c.chapter)).Nodup) :
    runScript (emitDoc nfkd doc code name language license) emptyDB
      = (runGenerate nfkd nfO doc code name language license
          emptySt).1.pg.committed := by
  obtain ⟨hok, hcm, htx⟩ :=
    runGenerate_nf nfkd doc code name language license emptySt
  rw [hcm]
  simp only [emitDoc]
  rw [runScript_append]
  have hpre : runScript [SStmt.dropTbl 3, SStmt.dropTbl 2, SStmt.dropTbl 1,
      SStmt.dropTbl 0, SStmt.createTbl 0,
      SStmt.insertTranslation (esc code) (esc name) (esc language)
        (esc license),
      SStmt.createTbl 1, SStmt.createTbl 2, SStmt.createTbl 3,
      SStmt.createIdx 0, SStmt.createIdx 1, SStmt.createIdx 2] emptyDB
      = ({ translations := [⟨1, code, name, language, license⟩],
           books := [], chapters := [], verses := [] } : DB) := by
    simp [runScript, execS, clearTbl, emptyDB, unesc_esc]
  rw [hpre]
  rw [execBooks nfkd hnf code name language license doc.books 0
    { translations := [⟨1, code, name, language, license⟩],
      books := [], chapters := [], verses := [] }
    rfl hbn hcn
    (fun b hb row hrow => absurd hrow (List.not_mem_nil row))
    (fun c hc => absurd hc (List.not_mem_nil c))]
  rfl

/-- Concrete instance: a two book document with distinct names, run
    through both modes from the empty database, with the identity standing
    in for the NFKD pass. -/
theorem mode_roundtrip_inst :
    (fun s => s) "" = ""
    ∧ runScript (emitDoc (fun s => s)
          ⟨[⟨"Gen", [⟨1, [⟨1, "In the beginning"⟩, ⟨2, "and"⟩]⟩]⟩,
            ⟨"Exo", [⟨1, [⟨1, "Now these"⟩]⟩, ⟨2, []⟩]⟩]⟩
          "KJV" "King James" "en" "Public") emptyDB
        = (runGenerate (fun s => s) nfO
            ⟨[⟨"Gen", [⟨1, [⟨1, "In the beginning"⟩, ⟨2, "and"⟩]⟩]⟩,
              ⟨"Exo", [⟨1, [⟨1, "Now these"⟩]⟩, ⟨2, []⟩]⟩]⟩
            "KJV" "King James" "en" "Public" emptySt).1.pg.committed :=
  ⟨rfl, mode_roundtrip (fun s => s) rfl
    ⟨[⟨"Gen", [⟨1, [⟨1, "In the beginning"⟩, ⟨2, "and"⟩]⟩]⟩,
      ⟨"Exo", [⟨1, [⟨1, "Now these"⟩]⟩, ⟨2, []⟩]⟩]⟩
    "KJV" "King James" "en" "Public" (by decide) (by decide)⟩

end BibleDB
